import Mathlib

/-!
Verification of the aligot dependency-resolution, fingerprinting and
build-convergence engine.

The definitions below are a shallow embedding of the Go sources:
`src/unnamed/part_000` (the current snapshot of `main.go`) and the two
older snapshots kept in `src/main.go`.  Pure Go functions become Lean
functions; the `map[string]*Spec` registry becomes an association list
`List (String × Spec)` whose list order models Go's (arbitrary) map
iteration order where iteration order matters; fallible code (Go panics
and `log.Fatalf`) returns `Option` / `Except` / a result type with an
error constructor.  Machine integers are `Nat` with explicit `% 2^32`
reductions (the SHA-1 word arithmetic).
-/

namespace Aligot

/-! ## Data model: the `Spec` structure (part_000, lines 49-71)

Field names and order follow the Go struct.  The Go `tar` sub-struct is
`TarPaths` here. -/

structure TarPaths where
  storePath : String := ""
  linksPath : String := ""
  hashDir   : String := ""
  linkDir   : String := ""
deriving DecidableEq, Repr

structure Spec where
  Package           : String := ""
  Version           : String := ""
  Requires          : List String := []
  BuildRequires     : List String := []
  RuntimeRequires   : List String := []
  Env               : List (String × String) := []
  Source            : String := ""
  CommitHash        : String := ""
  WriteRepo         : String := ""
  Tag               : String := ""
  Recipe            : String := ""
  IncrementalRecipe : String := ""
  Hash              : String := ""
  Revision          : String := ""
  tar               : TarPaths := {}
deriving DecidableEq, Repr

/-- The configuration fields of `Config` (part_000, lines 30-47) that the
resolution / fingerprint / build pipeline reads.  CLI parsing is external. -/
structure Config where
  arch        : String := ""
  wdir        : String := ""
  remoteStore : String := ""
  disable     : List String := []
  defaults    : String := "release"
deriving DecidableEq, Repr

/-! ## Byte-level string model

Go hashes `[]byte(s)`, i.e. the UTF-8 encoding of `s`.  We model bytes as
`Nat` values below 256. -/

/-- UTF-8 encoding of one code point (Go `[]byte(string)` semantics). -/
def utf8EncodeChar (c : Char) : List Nat :=
  let n := c.toNat
  if n < 0x80 then [n]
  else if n < 0x800 then [0xC0 + n / 64, 0x80 + n % 64]
  else if n < 0x10000 then [0xE0 + n / 4096, 0x80 + (n / 64) % 64, 0x80 + n % 64]
  else [0xF0 + n / 262144, 0x80 + (n / 4096) % 64, 0x80 + (n / 64) % 64, 0x80 + n % 64]

/-- The bytes of a Go string: UTF-8 encoding of its characters. -/
def utf8Bytes (s : String) : List Nat :=
  (s.data.map utf8EncodeChar).flatten

/-! ## SHA-1 (`crypto/sha1` as used in the hash-calculation loop)

A complete executable SHA-1 over byte lists, with 32-bit words as `Nat`
reduced `% 2^32`. -/

def w32 : Nat := 4294967296

/-- Left rotation of a 32-bit word by `k` (0 < k < 32): the shifted-out high
bits land in the low `k` bits, which the low summand occupies disjointly. -/
def rotl (k x : Nat) : Nat :=
  (x * 2 ^ k) % w32 + x / 2 ^ (32 - k)

/-- Bitwise complement of a 32-bit word. -/
def not32 (x : Nat) : Nat := 4294967295 - x % w32

def add32 (x y : Nat) : Nat := (x + y) % w32

/-- SHA-1 message padding: append 0x80, zero-fill to 56 mod 64 bytes, then
the bit length as 8 big-endian bytes. -/
def sha1pad (msg : List Nat) : List Nat :=
  let ml := 8 * msg.length
  let zeros := (64 + 56 - (msg.length + 1) % 64) % 64
  msg ++ [0x80] ++ List.replicate zeros 0 ++
    [ml / 2 ^ 56 % 256, ml / 2 ^ 48 % 256, ml / 2 ^ 40 % 256, ml / 2 ^ 32 % 256,
     ml / 2 ^ 24 % 256, ml / 2 ^ 16 % 256, ml / 2 ^ 8 % 256, ml % 256]

/-- Split a byte list into 64-byte chunks; `fuel` is a structural-recursion
bound, never exhausted when it starts at the list length. -/
def chunks64Go : Nat → List Nat → List (List Nat)
  | 0, _ => []
  | _, [] => []
  | fuel + 1, l => l.take 64 :: chunks64Go fuel (l.drop 64)

def chunks64 (l : List Nat) : List (List Nat) := chunks64Go l.length l

/-- Big-endian 32-bit words of one 64-byte chunk. -/
def chunkWords : List Nat → List Nat
  | b0 :: b1 :: b2 :: b3 :: rest =>
      (b0 * 2 ^ 24 + b1 * 2 ^ 16 + b2 * 2 ^ 8 + b3) :: chunkWords rest
  | _ => []

/-- Message-schedule extension: grow the 16 words to 80. -/
def extendWords : Nat → List Nat → List Nat
  | 0, w => w
  | n + 1, w =>
      let l := w.length
      let x := Nat.xor (Nat.xor (w.getD (l - 3) 0) (w.getD (l - 8) 0))
                       (Nat.xor (w.getD (l - 14) 0) (w.getD (l - 16) 0))
      extendWords n (w ++ [rotl 1 x])

structure Sha1State where
  h0 : Nat
  h1 : Nat
  h2 : Nat
  h3 : Nat
  h4 : Nat
deriving DecidableEq, Repr

def sha1Init : Sha1State :=
  ⟨0x67452301, 0xEFCDAB89, 0x98BADCFE, 0x10325476, 0xC3D2E1F0⟩

/-- One of the 80 compression rounds; `i` selects the round function and
constant. -/
def sha1Round (st : Sha1State) (iw : Nat × Nat) : Sha1State :=
  let a := st.h0; let b := st.h1; let c := st.h2; let d := st.h3; let e := st.h4
  let i := iw.1
  let f :=
    if i < 20 then Nat.lor (Nat.land b c) (Nat.land (not32 b) d)
    else if i < 40 then Nat.xor (Nat.xor b c) d
    else if i < 60 then Nat.lor (Nat.lor (Nat.land b c) (Nat.land b d)) (Nat.land c d)
    else Nat.xor (Nat.xor b c) d
  let k :=
    if i < 20 then 0x5A827999
    else if i < 40 then 0x6ED9EBA1
    else if i < 60 then 0x8F1BBCDC
    else 0xCA62C1D6
  let temp := (rotl 5 a + f + e + k + iw.2) % w32
  ⟨temp, a, rotl 30 b, c, d⟩

/-- Process one 64-byte chunk. -/
def sha1Chunk (st : Sha1State) (chunk : List Nat) : Sha1State :=
  let w := extendWords 64 (chunkWords chunk)
  let r := w.enum.foldl sha1Round st
  ⟨add32 st.h0 r.h0, add32 st.h1 r.h1, add32 st.h2 r.h2,
   add32 st.h3 r.h3, add32 st.h4 r.h4⟩

/-- Big-endian serialization of one 32-bit word. -/
def wordBytes (x : Nat) : List Nat :=
  [x / 2 ^ 24 % 256, x / 2 ^ 16 % 256, x / 2 ^ 8 % 256, x % 256]

/-- The 20-byte SHA-1 digest of a byte list. -/
def sha1Bytes (msg : List Nat) : List Nat :=
  let st := (chunks64 (sha1pad msg)).foldl sha1Chunk sha1Init
  wordBytes st.h0 ++ wordBytes st.h1 ++ wordBytes st.h2 ++
    wordBytes st.h3 ++ wordBytes st.h4

def hexDigit (n : Nat) : Char :=
  (("0123456789abcdef").data.getD n '0')

/-- Lowercase hex of a byte list (Go `hex.EncodeToString`). -/
def hexEncode (l : List Nat) : List Char :=
  l.foldr (fun b acc => hexDigit (b / 16) :: hexDigit (b % 16) :: acc) []

/-- Hex SHA-1 digest of a string, as in
`hex.EncodeToString(sha1.Sum(...))`. -/
def sha1hex (s : String) : String :=
  String.mk (hexEncode (sha1Bytes (utf8Bytes s)))

set_option maxRecDepth 10000 in
example : sha1hex "abc" = "a9993e364706816aba3e25717850c26c9cd0d89d" := by decide

set_option maxRecDepth 20000 in
example :
    sha1hex "aaaaaaaaaaaaaaaaaaaaaaaaaaaaaaaaaaaaaaaaaaaaaaaaaaaaaaaaaaaaaaaaaaaaaaaaaaaaaa"
      = "6590bb6183e647994a444556d4b62eb94cb6cfe6" := by decide

set_option maxRecDepth 10000 in
example : sha1hex "" = "da39a3ee5e6b4b0d3255bfef95601890afd80709" := by decide

/-! ## Architecture filter (`filterByArch`, part_000 lines 457-477; identical
in main.go lines 423-443)

`strings.SplitN(v, ":", 1)` returns the whole string as its only element,
so for any token containing `:` the subsequent `s[1]` access is out of
range and the Go program panics; we model the panic as `none`.  For a
plain token the compiled matcher is `".*"`, which matches every
architecture string, so the token's name is kept unconditionally.  The
per-token regular expression is therefore never compiled on any input
that gets past `s[1]`. -/

def filterByArch (arch : String) : List String → Option (List String)
  | [] => some []
  | v :: rest =>
      if v.data.contains ':' then
        -- s := strings.SplitN(v, ":", 1) = [v]; s[1] panics (index out of range)
        none
      else
        -- matcher ".*" matches `arch` whatever it is; keep req = v
        match filterByArch arch rest with
        | none => none
        | some o => some (v :: o)

/-! ## Recipe resolution (part_000 lines 216-279)

Recipe loading and YAML parsing are external collaborators: the recipe
source is modelled as an association list from the lower-cased package
name to the already-parsed metadata `Spec` and the recipe body text. -/

inductive ResolveErr where
  | missingRecipe (pkg : String)
  | invalidRequirement (pkg : String)
  | outOfFuel
deriving DecidableEq, Repr

/-- Go `strings.Replace(s, "/", "_", -1)`: every occurrence of the
single-character pattern `/` becomes `_`, which for a one-character
pattern is exactly a character map. -/
def goReplaceSlash (s : String) : String :=
  String.mk (s.data.map (fun c => if c = '/' then '_' else c))

/-- Go `strings.ToLower` (character-wise lowering, as used on ASCII
package names to build the recipe file name). -/
def goToLower (s : String) : String :=
  String.mk (s.data.map Char.toLower)

/-- The `fn` closure (part_000 lines 249-258): architecture-filter the
requirement tokens, then drop every name in the disable set. -/
def filterReqs (cfg : Config) (args : List String) : Option (List String) :=
  match filterByArch cfg.arch args with
  | none => none
  | some archs => some (archs.filter (fun v => ¬ cfg.disable.contains v))

/-- The per-package body of the resolution loop after YAML parsing
(part_000 lines 248-277): filter `Requires`/`BuildRequires`, append the
implicit defaults package unless self-referential, snapshot
`RuntimeRequires`, rebuild `Requires`, default the tag, normalize the
version, and attach the recipe body.  `none` is the `filterByArch`
panic. -/
def processSpec (cfg : Config) (raw : Spec) (recipe : String) : Option Spec :=
  match filterReqs cfg raw.Requires with
  | none => none
  | some reqs0 =>
    match filterReqs cfg raw.BuildRequires with
    | none => none
    | some breqs0 =>
      let breqs := if raw.Package ≠ "defaults-" ++ cfg.defaults
        then breqs0 ++ ["defaults-" ++ cfg.defaults] else breqs0
      let runtime := reqs0
      some { raw with
        Requires := runtime ++ breqs
        BuildRequires := breqs
        RuntimeRequires := runtime
        Tag := if raw.Tag = "" then raw.Version else raw.Tag
        Version := goReplaceSlash raw.Version
        Recipe := recipe }

/-- Go map assignment `b.specs[spec.Package] = &spec` on the association
list: replace an existing binding in place, else append. -/
def mapInsert (m : List (String × Spec)) (k : String) (v : Spec) :
    List (String × Spec) :=
  if (m.lookup k).isSome then
    m.map (fun kv => if kv.1 = k then (k, v) else kv)
  else m ++ [(k, v)]

/-- The resolution work-list loop (part_000 lines 216-279).  `fuel` is a
structural-recursion bound only; the Go loop terminates because each
name is resolved at most once, and every theorem below is conditioned on
an `.ok` result, never on fuel arithmetic. -/
def resolveLoop (cfg : Config) (src : List (String × (Spec × String))) :
    Nat → List String → List (String × Spec) →
    Except ResolveErr (List (String × Spec))
  | _, [], specs => .ok specs
  | 0, _ :: _, _ => .error .outOfFuel
  | fuel + 1, pkg :: pending, specs =>
    if (specs.lookup pkg).isSome then
      resolveLoop cfg src fuel pending specs
    else
      match src.lookup (goToLower pkg) with
      | none => .error (.missingRecipe pkg)
      | some (raw, recipe) =>
        if cfg.disable.contains raw.Package then
          resolveLoop cfg src fuel pending specs
        else
          match processSpec cfg raw recipe with
          | none => .error (.invalidRequirement pkg)
          | some spec =>
              resolveLoop cfg src fuel (pending ++ spec.Requires)
                (mapInsert specs spec.Package spec)

theorem resolveLoop_cons (cfg : Config) (src : List (String × (Spec × String)))
    (fuel : Nat) (pkg : String) (pending : List String)
    (specs : List (String × Spec)) :
    resolveLoop cfg src (fuel + 1) (pkg :: pending) specs =
      (if (specs.lookup pkg).isSome then resolveLoop cfg src fuel pending specs
       else match src.lookup (goToLower pkg) with
       | none => .error (.missingRecipe pkg)
       | some (raw, recipe) =>
         if cfg.disable.contains raw.Package then
           resolveLoop cfg src fuel pending specs
         else match processSpec cfg raw recipe with
           | none => .error (.invalidRequirement pkg)
           | some spec =>
               resolveLoop cfg src fuel (pending ++ spec.Requires)
                 (mapInsert specs spec.Package spec)) := rfl

theorem mem_mapInsert {m : List (String × Spec)} {k : String} {v : Spec}
    {e : String × Spec} (h : e ∈ mapInsert m k v) : e ∈ m ∨ e = (k, v) := by
  unfold mapInsert at h
  by_cases hs : (m.lookup k).isSome
  · rw [if_pos hs] at h
    rcases List.mem_map.mp h with ⟨x, hx, hfx⟩
    by_cases hxk : x.1 = k
    · rw [if_pos hxk] at hfx
      exact Or.inr hfx.symm
    · rw [if_neg hxk] at hfx
      exact Or.inl (hfx ▸ hx)
  · rw [if_neg hs] at h
    rcases List.mem_append.mp h with hl | hr
    · exact Or.inl hl
    · rcases List.mem_cons.mp hr with rfl | hc
      · exact Or.inr rfl
      · exact absurd hc (List.not_mem_nil e)

/-- Every entry of a successfully resolved registry was produced by
`processSpec` on a package that passed the disable check, and is keyed
by its own `Package` field. -/
theorem resolveLoop_preserves (cfg : Config)
    (src : List (String × (Spec × String))) (P : String × Spec → Prop)
    (hP : ∀ raw recipe s', cfg.disable.contains raw.Package = false →
      processSpec cfg raw recipe = some s' → P (s'.Package, s')) :
    ∀ (fuel : Nat) (pending : List String) (acc : List (String × Spec)),
      (∀ kv ∈ acc, P kv) →
      ∀ reg, resolveLoop cfg src fuel pending acc = .ok reg →
      ∀ kv ∈ reg, P kv := by
  intro fuel
  induction fuel with
  | zero =>
      intro pending acc hacc reg h
      cases pending with
      | nil =>
          cases h
          exact hacc
      | cons pkg pending => cases h
  | succ fuel ih =>
      intro pending acc hacc reg h
      cases pending with
      | nil =>
          cases h
          exact hacc
      | cons pkg pending =>
          rw [resolveLoop_cons] at h
          by_cases hs : (acc.lookup pkg).isSome
          · rw [if_pos hs] at h
            exact ih pending acc hacc reg h
          · rw [if_neg hs] at h
            split at h
            · cases h
            · rename_i raw recipe _
              by_cases hdis : cfg.disable.contains raw.Package
              · rw [if_pos hdis] at h
                exact ih pending acc hacc reg h
              · rw [if_neg hdis] at h
                split at h
                · cases h
                · rename_i spec hps
                  refine ih _ _ ?_ reg h
                  intro kv hkv
                  rcases mem_mapInsert hkv with hold | rfl
                  · exact hacc kv hold
                  · exact hP raw recipe spec (by simpa using hdis) hps

/-! ## Topological sorter (`topoSort`, part_000 lines 482-505)

The registry is an association list; `topoSort` first collects the keys
and sorts them (`sort.Strings`), so the arbitrary Go map iteration order
is irrelevant to its output.  `m[item].Requires` dereferences a nil
pointer when `item` is not a key; that point is unreachable on the
closed registries all theorems below quantify over, and the model reads
an empty requirement list there. -/

def reqs (m : List (String × Spec)) (k : String) : List String :=
  match m.lookup k with
  | some s => s.Requires
  | none => []

structure TState where
  seen  : List String
  order : List String
deriving DecidableEq, Repr

/-- The recursive `visitAll` closure.  `fuel` bounds the nesting depth of
descents into unseen nodes; each descent marks a previously unseen name
from the finite name universe, so the fuel `topoSort` supplies can never
run out (`visitAll` at fuel 0 is unreachable). -/
def visitAll (m : List (String × Spec)) : Nat → List String → TState → TState
  | 0, _, st => st
  | fuel + 1, items, st =>
      items.foldl (fun st item =>
        if item ∈ st.seen then st
        else
          let st1 : TState := ⟨item :: st.seen, st.order⟩
          let st2 := visitAll m fuel (reqs m item) st1
          ⟨st2.seen, st2.order ++ [item]⟩) st

/-- The finite universe of names mentioned by the registry: its keys and
every name in any requirement list. -/
def names (m : List (String × Spec)) : List String :=
  m.map Prod.fst ++ (m.map (fun kv => kv.2.Requires)).flatten

/-- Lexicographic comparison of code-point sequences; on valid UTF-8 this
is exactly Go's byte-wise string order. -/
def charListLe : List Char → List Char → Bool
  | [], _ => true
  | _ :: _, [] => false
  | a :: as, b :: bs =>
      if a.toNat < b.toNat then true
      else if b.toNat < a.toNat then false
      else charListLe as bs

def strLe (a b : String) : Bool := charListLe a.data b.data

/-- Go `sort.Strings`: the sorted permutation of `l` (modelled by insertion
sort; any correct sort returns the same list). -/
def sortStrings (l : List String) : List String :=
  l.insertionSort (fun a b => strLe a b = true)

theorem charListLe_total : ∀ as bs : List Char,
    charListLe as bs = true ∨ charListLe bs as = true := by
  intro as
  induction as with
  | nil => intro bs; exact Or.inl rfl
  | cons a as ih =>
      intro bs
      cases bs with
      | nil => exact Or.inr rfl
      | cons b bs =>
          simp only [charListLe]
          rcases Nat.lt_trichotomy a.toNat b.toNat with h | h | h
          · left; rw [if_pos h]
          · rw [if_neg (by omega), if_neg (by omega), if_neg (by omega), if_neg (by omega)]
            exact ih bs
          · right; rw [if_pos h]

theorem charListLe_trans : ∀ as bs cs : List Char,
    charListLe as bs = true → charListLe bs cs = true → charListLe as cs = true := by
  intro as
  induction as with
  | nil => intro bs cs _ _; rfl
  | cons a as ih =>
      intro bs cs h1 h2
      cases bs with
      | nil => simp [charListLe] at h1
      | cons b bs =>
          cases cs with
          | nil => simp [charListLe] at h2
          | cons c cs =>
              simp only [charListLe] at h1 h2 ⊢
              by_cases hab : a.toNat < b.toNat
              · by_cases hbc : b.toNat < c.toNat
                · rw [if_pos (by omega)]
                · rw [if_neg hbc] at h2
                  by_cases hcb : c.toNat < b.toNat
                  · rw [if_pos hcb] at h2; exact absurd h2 (by simp)
                  · rw [if_pos (show a.toNat < c.toNat by omega)]
              · rw [if_neg hab] at h1
                by_cases hba : b.toNat < a.toNat
                · rw [if_pos hba] at h1; exact absurd h1 (by simp)
                · rw [if_neg hba] at h1
                  by_cases hbc : b.toNat < c.toNat
                  · rw [if_pos (show a.toNat < c.toNat by omega)]
                  · rw [if_neg hbc] at h2
                    by_cases hcb : c.toNat < b.toNat
                    · rw [if_pos hcb] at h2; exact absurd h2 (by simp)
                    · rw [if_neg hcb] at h2
                      rw [if_neg (show ¬ a.toNat < c.toNat by omega),
                        if_neg (show ¬ c.toNat < a.toNat by omega)]
                      exact ih bs cs h1 h2

theorem charListLe_antisymm : ∀ as bs : List Char,
    charListLe as bs = true → charListLe bs as = true → as = bs := by
  intro as
  induction as with
  | nil =>
      intro bs h1 h2
      cases bs with
      | nil => rfl
      | cons b bs => simp [charListLe] at h2
  | cons a as ih =>
      intro bs h1 h2
      cases bs with
      | nil => simp [charListLe] at h1
      | cons b bs =>
          simp only [charListLe] at h1 h2
          by_cases hab : a.toNat < b.toNat
          · rw [if_neg (show ¬ b.toNat < a.toNat by omega), if_pos hab] at h2
            exact absurd h2 (by simp)
          · by_cases hba : b.toNat < a.toNat
            · rw [if_neg hab, if_pos hba] at h1
              exact absurd h1 (by simp)
            · rw [if_neg hab, if_neg hba] at h1
              rw [if_neg hba, if_neg hab] at h2
              have hval : a.toNat = b.toNat := by omega
              have hchar : a = b := Char.ext (UInt32.ext hval)
              rw [hchar, ih bs h1 h2]

theorem strLe_total (a b : String) : strLe a b = true ∨ strLe b a = true :=
  charListLe_total a.data b.data

theorem strLe_trans {a b c : String} (h1 : strLe a b = true)
    (h2 : strLe b c = true) : strLe a c = true :=
  charListLe_trans a.data b.data c.data h1 h2

theorem strLe_antisymm {a b : String} (h1 : strLe a b = true)
    (h2 : strLe b a = true) : a = b := by
  have h := charListLe_antisymm a.data b.data h1 h2
  exact congrArg String.mk h

instance : IsTotal String (fun a b => strLe a b = true) := ⟨strLe_total⟩

instance : IsTrans String (fun a b => strLe a b = true) :=
  ⟨fun _ _ _ => strLe_trans⟩

instance : IsAntisymm String (fun a b => strLe a b = true) :=
  ⟨fun _ _ => strLe_antisymm⟩

/-- `sortStrings` depends only on the multiset of keys: any two
enumerations of the same map sort to the same list.  This is exactly why
`topoSort` is insensitive to Go's arbitrary map iteration order. -/
theorem sortStrings_eq_of_perm {l₁ l₂ : List String} (h : l₁.Perm l₂) :
    sortStrings l₁ = sortStrings l₂ :=
  List.eq_of_perm_of_sorted
    ((List.perm_insertionSort _ l₁).trans (h.trans (List.perm_insertionSort _ l₂).symm))
    (List.sorted_insertionSort _ l₁) (List.sorted_insertionSort _ l₂)

def topoSort (m : List (String × Spec)) : List String :=
  (visitAll m ((names m).dedup.length + 1) (sortStrings (m.map Prod.fst))
    ⟨[], []⟩).order

/-! ## Requirement graph -/

/-- `Edge m a b`: package `a` directly requires `b`. -/
def Edge (m : List (String × Spec)) (a b : String) : Prop :=
  b ∈ reqs m a

/-- The requirement graph has no cycle. -/
def Acyclic (m : List (String × Spec)) : Prop :=
  ∀ a, ¬ Relation.TransGen (Edge m) a a

/-- Every required name resolves to a registry entry. -/
def ClosedMap (m : List (String × Spec)) : Prop :=
  ∀ kv ∈ m, ∀ r ∈ kv.2.Requires, (m.lookup r).isSome

/-- Dependency-first order: every requirement of every listed package
appears in the list, strictly earlier. -/
def GoodOrder (m : List (String × Spec)) (l : List String) : Prop :=
  ∀ p ∈ l, ∀ r ∈ reqs m p, r ∈ l ∧ l.indexOf r < l.indexOf p

theorem lookup_mem {α β : Type} [BEq α] [LawfulBEq α] {m : List (α × β)}
    {k : α} {v : β} (h : m.lookup k = some v) : (k, v) ∈ m := by
  induction m with
  | nil => simp [List.lookup] at h
  | cons kv rest ih =>
      rw [List.lookup] at h
      by_cases hk : k == kv.1
      · simp [hk] at h
        rcases kv with ⟨k', v'⟩
        simp at hk
        simp [hk, ← h]
      · simp [hk] at h
        exact List.mem_cons_of_mem _ (ih h)

theorem mem_reqs_sub {m : List (String × Spec)} {k x : String}
    (h : x ∈ reqs m k) : ∃ kv ∈ m, x ∈ kv.2.Requires := by
  unfold reqs at h
  rcases hl : m.lookup k with _ | s
  · rw [hl] at h; simp at h
  · rw [hl] at h
    exact ⟨(k, s), lookup_mem hl, h⟩

theorem reqs_sub_names {m : List (String × Spec)} {k x : String}
    (h : x ∈ reqs m k) : x ∈ names m := by
  rcases mem_reqs_sub h with ⟨kv, hkv, hx⟩
  unfold names
  refine List.mem_append_right _ ?_
  exact List.mem_flatten.mpr ⟨kv.2.Requires, List.mem_map_of_mem _ hkv, hx⟩

/-- Count of names not yet seen; it strictly drops when an unseen name in
the universe is marked, which is why the fuel `topoSort` supplies cannot
run out. -/
def unseenCount (m : List (String × Spec)) (seen : List String) : Nat :=
  ((names m).toFinset \ seen.toFinset).card

theorem unseenCount_mono {m : List (String × Spec)} {s₁ s₂ : List String}
    (h : ∀ x ∈ s₁, x ∈ s₂) : unseenCount m s₂ ≤ unseenCount m s₁ := by
  apply Finset.card_le_card
  apply Finset.sdiff_subset_sdiff (Finset.Subset.refl _)
  intro x hx
  exact List.mem_toFinset.mpr (h x (List.mem_toFinset.mp hx))

theorem unseenCount_insert {m : List (String × Spec)} {seen : List String}
    {a : String} (hmem : a ∈ names m) (hns : a ∉ seen) :
    unseenCount m (a :: seen) < unseenCount m seen := by
  unfold unseenCount
  rw [List.toFinset_cons, Finset.sdiff_insert]
  have hmem' : a ∈ (names m).toFinset \ seen.toFinset :=
    Finset.mem_sdiff.mpr ⟨List.mem_toFinset.mpr hmem, fun hc => hns (List.mem_toFinset.mp hc)⟩
  rw [Finset.card_erase_of_mem hmem']
  have hpos : 0 < ((names m).toFinset \ seen.toFinset).card :=
    Finset.card_pos.mpr ⟨a, hmem'⟩
  omega

theorem visitAll_zero (m : List (String × Spec)) (items : List String) (st : TState) :
    visitAll m 0 items st = st := rfl

theorem visitAll_nil (m : List (String × Spec)) (fuel : Nat) (st : TState) :
    visitAll m (fuel + 1) [] st = st := rfl

theorem visitAll_cons (m : List (String × Spec)) (fuel : Nat) (item : String)
    (items : List String) (st : TState) :
    visitAll m (fuel + 1) (item :: items) st =
      if item ∈ st.seen then visitAll m (fuel + 1) items st
      else
        let st2 := visitAll m fuel (reqs m item) ⟨item :: st.seen, st.order⟩
        visitAll m (fuel + 1) items ⟨st2.seen, st2.order ++ [item]⟩ := by
  show List.foldl _ _ _ = _
  rw [List.foldl_cons]
  by_cases h : item ∈ st.seen
  · rw [if_pos h, if_pos h]
    rfl
  · rw [if_neg h, if_neg h]
    rfl

/-- Structural facts about `visitAll`: the order is only extended, by
fresh (previously unseen), pairwise distinct names drawn from the items
and requirement lists, and the seen set ends up being the old seen set
plus exactly the appended names. -/
theorem visitAll_basic (m : List (String × Spec)) :
    ∀ (fuel : Nat) (items : List String) (st : TState),
    ∃ Δ : List String,
      (visitAll m fuel items st).order = st.order ++ Δ ∧
      (∀ x, x ∈ (visitAll m fuel items st).seen ↔ x ∈ st.seen ∨ x ∈ Δ) ∧
      (∀ x ∈ Δ, x ∉ st.seen) ∧
      Δ.Nodup ∧
      (∀ x ∈ Δ, x ∈ items ∨ ∃ kv ∈ m, x ∈ kv.2.Requires) := by
  intro fuel
  induction fuel with
  | zero =>
      intro items st
      exact ⟨[], by simp [visitAll_zero], by simp [visitAll_zero], by simp, by simp, by simp⟩
  | succ fuel ihf =>
      intro items
      induction items with
      | nil =>
          intro st
          exact ⟨[], by simp [visitAll_nil], by simp [visitAll_nil], by simp, by simp, by simp⟩
      | cons item items ihi =>
          intro st
          rw [visitAll_cons]
          by_cases hitem : item ∈ st.seen
          · rw [if_pos hitem]
            rcases ihi st with ⟨Δ, h1, h2, h3, h4, h5⟩
            exact ⟨Δ, h1, h2, h3, h4, fun x hx =>
              (h5 x hx).imp (List.mem_cons_of_mem _) id⟩
          · rw [if_neg hitem]
            simp only []
            set st1 : TState := ⟨item :: st.seen, st.order⟩ with hst1
            rcases ihf (reqs m item) st1 with ⟨Δ₁, g1, g2, g3, g4, g5⟩
            set st2 := visitAll m fuel (reqs m item) st1 with hst2
            set st3 : TState := ⟨st2.seen, st2.order ++ [item]⟩ with hst3
            rcases ihi st3 with ⟨Δ₂, k1, k2, k3, k4, k5⟩
            refine ⟨Δ₁ ++ item :: Δ₂, ?_, ?_, ?_, ?_, ?_⟩
            · rw [k1, hst3]
              simp only [hst1] at g1
              simp [g1, List.append_assoc]
            · intro x
              rw [k2 x]
              have hseen3 : x ∈ st3.seen ↔ x ∈ st2.seen := Iff.rfl
              rw [hseen3, g2 x]
              simp only [hst1, List.mem_cons, List.mem_append]
              constructor
              · rintro (((rfl | hs) | hΔ1) | hΔ2)
                · exact Or.inr (Or.inr (Or.inl rfl))
                · exact Or.inl hs
                · exact Or.inr (Or.inl hΔ1)
                · exact Or.inr (Or.inr (Or.inr hΔ2))
              · rintro (hs | (hΔ1 | (rfl | hΔ2)))
                · exact Or.inl (Or.inl (Or.inr hs))
                · exact Or.inl (Or.inr hΔ1)
                · exact Or.inl (Or.inl (Or.inl rfl))
                · exact Or.inr hΔ2
            · intro x hx hxs
              rcases List.mem_append.mp hx with hΔ1 | hx2
              · exact g3 x hΔ1 (by simp [hst1, hxs])
              · rcases List.mem_cons.mp hx2 with rfl | hΔ2
                · exact hitem hxs
                · refine k3 x hΔ2 ?_
                  show x ∈ st2.seen
                  exact (g2 x).mpr (Or.inl (by simp [hst1, hxs]))
            · rw [List.nodup_append]
              refine ⟨g4, ?_, ?_⟩
              · rw [List.nodup_cons]
                refine ⟨fun hc => ?_, k4⟩
                have : item ∉ st3.seen := k3 item hc
                exact this ((g2 item).mpr (Or.inl (by simp [hst1])))
              · intro x hΔ1 hx2
                rcases List.mem_cons.mp hx2 with rfl | hΔ2
                · exact g3 x hΔ1 (by simp [hst1])
                · have hx2seen : x ∈ st2.seen := (g2 x).mpr (Or.inr hΔ1)
                  exact k3 x hΔ2 hx2seen
            · intro x hx
              rcases List.mem_append.mp hx with hΔ1 | hx2
              · rcases g5 x hΔ1 with hr | hkv
                · exact Or.inr (mem_reqs_sub hr)
                · exact Or.inr hkv
              · rcases List.mem_cons.mp hx2 with rfl | hΔ2
                · exact Or.inl (List.mem_cons_self _ _)
                · rcases k5 x hΔ2 with hi | hkv
                  · exact Or.inl (List.mem_cons_of_mem _ hi)
                  · exact Or.inr hkv

/-- Correctness invariant of the depth-first traversal on acyclic
registries.  `gray` is the set of names currently on the recursion
stack, each of which reaches every pending item through requirement
edges; every processed item ends up in the output, every ancestor rule
keeps the output dependency-first. -/
theorem visitAll_good (m : List (String × Spec)) (hacyc : Acyclic m) :
    ∀ (fuel : Nat) (items : List String) (st : TState) (gray : List String),
    unseenCount m st.seen < fuel →
    (∀ x ∈ items, x ∈ names m) →
    (∀ g ∈ gray, ∀ x ∈ items, Relation.ReflTransGen (Edge m) g x) →
    (∀ x ∈ st.seen, x ∈ st.order ∨ x ∈ gray) →
    st.order.Nodup →
    (∀ x ∈ st.order, x ∈ st.seen) →
    GoodOrder m st.order →
    ((∀ x ∈ items, x ∈ (visitAll m fuel items st).order ∨ x ∈ gray) ∧
     (∀ x ∈ (visitAll m fuel items st).seen,
        x ∈ (visitAll m fuel items st).order ∨ x ∈ gray) ∧
     (visitAll m fuel items st).order.Nodup ∧
     (∀ x ∈ (visitAll m fuel items st).order, x ∈ (visitAll m fuel items st).seen) ∧
     GoodOrder m (visitAll m fuel items st).order) := by
  intro fuel
  induction fuel with
  | zero =>
      intro items st gray hfuel
      exact absurd hfuel (Nat.not_lt_zero _)
  | succ fuel ihf =>
      intro items
      induction items with
      | nil =>
          intro st gray _ _ _ hso hnd hos hgo
          rw [visitAll_nil]
          exact ⟨by simp, hso, hnd, hos, hgo⟩
      | cons item items ihi =>
          intro st gray hfuel hitems hgray hso hnd hos hgo
          rw [visitAll_cons]
          by_cases hitem : item ∈ st.seen
          · rw [if_pos hitem]
            have hitems' : ∀ x ∈ items, x ∈ names m :=
              fun x hx => hitems x (List.mem_cons_of_mem _ hx)
            have hgray' : ∀ g ∈ gray, ∀ x ∈ items, Relation.ReflTransGen (Edge m) g x :=
              fun g hg x hx => hgray g hg x (List.mem_cons_of_mem _ hx)
            rcases ihi st gray hfuel hitems' hgray' hso hnd hos hgo with
              ⟨C1, C2, C3, C4, C5⟩
            refine ⟨?_, C2, C3, C4, C5⟩
            intro x hx
            rcases List.mem_cons.mp hx with rfl | hx'
            · rcases hso x hitem with hord | hg
              · rcases visitAll_basic m (fuel + 1) items st with ⟨Δ, hΔ, _, _, _, _⟩
                exact Or.inl (hΔ ▸ List.mem_append_left _ hord)
              · exact Or.inr hg
            · exact C1 x hx'
          · rw [if_neg hitem]
            simp only []
            set st1 : TState := ⟨item :: st.seen, st.order⟩ with hst1
            set st2 := visitAll m fuel (reqs m item) st1 with hst2
            rcases visitAll_basic m fuel (reqs m item) st1 with ⟨Δ₁, e1, e2, e3, _, _⟩
            have hitemnames : item ∈ names m := hitems item (List.mem_cons_self _ _)
            have hfuel1 : unseenCount m st1.seen < fuel := by
              have := unseenCount_insert hitemnames hitem
              have hlt : unseenCount m st.seen < fuel + 1 := hfuel
              simp only [hst1]
              omega
            have hgray1 : ∀ g ∈ item :: gray, ∀ x ∈ reqs m item,
                Relation.ReflTransGen (Edge m) g x := by
              intro g hg x hx
              rcases List.mem_cons.mp hg with rfl | hg'
              · exact Relation.ReflTransGen.single hx
              · exact (hgray g hg' item (List.mem_cons_self _ _)).tail hx
            have hso1 : ∀ x ∈ st1.seen, x ∈ st1.order ∨ x ∈ item :: gray := by
              intro x hx
              rcases List.mem_cons.mp hx with rfl | hx'
              · exact Or.inr (List.mem_cons_self _ _)
              · exact (hso x hx').imp id (List.mem_cons_of_mem _)
            have hos1 : ∀ x ∈ st1.order, x ∈ st1.seen :=
              fun x hx => List.mem_cons_of_mem _ (hos x hx)
            rcases ihf (reqs m item) st1 (item :: gray) hfuel1
              (fun x hx => reqs_sub_names hx) hgray1 hso1 hnd hos1 hgo with
              ⟨D1, D2, D3, D4, D5⟩
            have hitem_not2 : item ∉ st2.order := by
              intro hc
              rw [e1] at hc
              rcases List.mem_append.mp hc with hc1 | hc2
              · exact hitem (hos item hc1)
              · exact e3 item hc2 (List.mem_cons_self _ _)
            set st3 : TState := ⟨st2.seen, st2.order ++ [item]⟩ with hst3
            have hitem_mem3 : item ∈ st3.order := by
              simp [hst3]
            have hst1seen_sub2 : ∀ x ∈ st1.seen, x ∈ st2.seen :=
              fun x hx => (e2 x).mpr (Or.inl hx)
            have hgo3 : GoodOrder m st3.order := by
              intro p hp r hr
              simp only [hst3] at hp ⊢
              rcases List.mem_append.mp hp with hp2 | hpi
              · rcases D5 p hp2 r hr with ⟨hrmem, hridx⟩
                refine ⟨List.mem_append_left _ hrmem, ?_⟩
                rw [List.indexOf_append_of_mem hrmem, List.indexOf_append_of_mem hp2]
                exact hridx
              · have hpitem : p = item := by simpa using hpi
                subst hpitem
                rcases D1 r hr with hr2 | hrg
                · refine ⟨List.mem_append_left _ hr2, ?_⟩
                  rw [List.indexOf_append_of_mem hr2,
                    List.indexOf_append_of_not_mem hitem_not2]
                  simp only [List.indexOf_cons_self, Nat.add_zero]
                  exact List.indexOf_lt_length.mpr hr2
                · exfalso
                  rcases List.mem_cons.mp hrg with rfl | hrg'
                  · exact hacyc r (Relation.TransGen.single hr)
                  · exact hacyc r (Relation.TransGen.tail'
                      (hgray r hrg' p (List.mem_cons_self _ _)) hr)
            have hfuel3 : unseenCount m st3.seen < fuel + 1 := by
              have h1 : unseenCount m st2.seen ≤ unseenCount m st1.seen :=
                unseenCount_mono hst1seen_sub2
              simp only [hst3]
              omega
            have hitems3 : ∀ x ∈ items, x ∈ names m :=
              fun x hx => hitems x (List.mem_cons_of_mem _ hx)
            have hgray3 : ∀ g ∈ gray, ∀ x ∈ items, Relation.ReflTransGen (Edge m) g x :=
              fun g hg x hx => hgray g hg x (List.mem_cons_of_mem _ hx)
            have hso3 : ∀ x ∈ st3.seen, x ∈ st3.order ∨ x ∈ gray := by
              intro x hx
              rcases D2 x hx with hxo | hxg
              · exact Or.inl (List.mem_append_left _ hxo)
              · rcases List.mem_cons.mp hxg with rfl | hxg'
                · exact Or.inl hitem_mem3
                · exact Or.inr hxg'
            have hnd3 : st3.order.Nodup := by
              simp only [hst3]
              rw [List.nodup_append]
              refine ⟨D3, List.nodup_singleton _, fun x hx hx2 => ?_⟩
              have hxi : x = item := by simpa using hx2
              subst hxi
              exact hitem_not2 hx
            have hos3 : ∀ x ∈ st3.order, x ∈ st3.seen := by
              intro x hx
              rcases List.mem_append.mp hx with hx2 | hxi
              · exact D4 x hx2
              · have : x = item := by simpa using hxi
                subst this
                exact hst1seen_sub2 x (List.mem_cons_self _ _)
            rcases ihi st3 gray hfuel3 hitems3 hgray3 hso3 hnd3 hos3 hgo3 with
              ⟨F1, F2, F3, F4, F5⟩
            refine ⟨?_, F2, F3, F4, F5⟩
            intro x hx
            rcases List.mem_cons.mp hx with rfl | hx'
            · rcases visitAll_basic m (fuel + 1) items st3 with ⟨Δ₂, f1, _, _, _, _⟩
              exact Or.inl (f1 ▸ List.mem_append_left _ hitem_mem3)
            · exact F1 x hx'

theorem sortStrings_mem {l : List String} {x : String} :
    x ∈ sortStrings l ↔ x ∈ l :=
  (List.perm_insertionSort (fun a b => strLe a b = true) l).mem_iff

theorem topoSort_order_eq (m : List (String × Spec)) :
    ∃ Δ : List String, topoSort m = Δ ∧ Δ.Nodup ∧
      (∀ x ∈ Δ, x ∈ m.map Prod.fst ∨ ∃ kv ∈ m, x ∈ kv.2.Requires) := by
  unfold topoSort
  rcases visitAll_basic m ((names m).dedup.length + 1)
    (sortStrings (m.map Prod.fst)) ⟨[], []⟩ with ⟨Δ, h1, _, _, h4, h5⟩
  refine ⟨Δ, by simpa using h1, h4, ?_⟩
  intro x hx
  rcases h5 x hx with hi | hkv
  · exact Or.inl (sortStrings_mem.mp hi)
  · exact Or.inr hkv

theorem topoSort_nodup (m : List (String × Spec)) : (topoSort m).Nodup := by
  rcases topoSort_order_eq m with ⟨Δ, h1, h2, _⟩
  rw [h1]; exact h2

theorem topoSort_mem_sub (m : List (String × Spec)) :
    ∀ x ∈ topoSort m, x ∈ m.map Prod.fst ∨ ∃ kv ∈ m, x ∈ kv.2.Requires := by
  rcases topoSort_order_eq m with ⟨Δ, h1, _, h3⟩
  rw [h1]; exact h3

theorem unseenCount_nil (m : List (String × Spec)) :
    unseenCount m [] = (names m).dedup.length := by
  simp [unseenCount, List.card_toFinset]

/-- On an acyclic registry the traversal output is dependency-first. -/
theorem topoSort_good (m : List (String × Spec)) (hacyc : Acyclic m) :
    GoodOrder m (topoSort m) := by
  unfold topoSort
  have hfuel : unseenCount m (TState.seen ⟨[], []⟩) < (names m).dedup.length + 1 := by
    rw [show TState.seen ⟨[], []⟩ = ([] : List String) from rfl, unseenCount_nil]
    omega
  have hitems : ∀ x ∈ sortStrings (m.map Prod.fst), x ∈ names m := by
    intro x hx
    exact List.mem_append_left _ (sortStrings_mem.mp hx)
  have h := visitAll_good m hacyc ((names m).dedup.length + 1)
    (sortStrings (m.map Prod.fst)) ⟨[], []⟩ [] hfuel hitems
    (by simp) (by simp) (by simp) (by simp)
    (fun p hp => absurd hp (List.not_mem_nil p))
  exact h.2.2.2.2

/-- Every registry key appears in the traversal output. -/
theorem topoSort_complete (m : List (String × Spec)) (hacyc : Acyclic m) :
    ∀ k ∈ m.map Prod.fst, k ∈ topoSort m := by
  unfold topoSort
  have hfuel : unseenCount m (TState.seen ⟨[], []⟩) < (names m).dedup.length + 1 := by
    rw [show TState.seen ⟨[], []⟩ = ([] : List String) from rfl, unseenCount_nil]
    omega
  have hitems : ∀ x ∈ sortStrings (m.map Prod.fst), x ∈ names m := by
    intro x hx
    exact List.mem_append_left _ (sortStrings_mem.mp hx)
  have h := visitAll_good m hacyc ((names m).dedup.length + 1)
    (sortStrings (m.map Prod.fst)) ⟨[], []⟩ [] hfuel hitems
    (by simp) (by simp) (by simp) (by simp)
    (fun p hp => absurd hp (List.not_mem_nil p))
  intro k hk
  rcases h.1 k (sortStrings_mem.mpr hk) with ho | hg
  · exact ho
  · exact absurd hg (List.not_mem_nil k)

/-- A rank function decreasing along requirement edges certifies
acyclicity. -/
theorem acyclic_of_rank (m : List (String × Spec)) (f : String → Nat)
    (h : ∀ a b, Edge m a b → f b < f a) : Acyclic m := by
  intro a hcyc
  have key : ∀ {x y : String}, Relation.TransGen (Edge m) x y → f y < f x := by
    intro x y hxy
    induction hxy with
    | single h1 => exact h _ _ h1
    | tail _ h2 ih => exact lt_trans (h _ _ h2) ih
  exact absurd (key hcyc) (lt_irrefl _)

theorem edge_cases {m : List (String × Spec)} {a b : String} (h : Edge m a b) :
    ∃ s, (a, s) ∈ m ∧ b ∈ s.Requires := by
  unfold Edge reqs at h
  rcases hl : List.lookup a m with _ | s
  · rw [hl] at h; simp at h
  · rw [hl] at h; exact ⟨s, lookup_mem hl, h⟩

/-! ## Claims about the topological sorter -/

/-- A two-package registry whose requirement graph is the cycle
`A → B → A`, closed under requires. -/
def cycSpecs : List (String × Spec) :=
  [("A", { Package := "A", Requires := ["B"] }),
   ("B", { Package := "B", Requires := ["A"] })]

/-- Claim C2 (refuted, code bug): on a registry whose requirement graph
contains a cycle, `topoSort` does not report any `CyclicDependency`
error — its type has no error outcome at all — and instead silently
returns a complete ordering, which is not dependency-first and which the
pipeline goes on to use.  Witnessed on the two-package cycle `A ↔ B`:
the sorter terminates and returns `["B", "A"]`. -/
theorem claim_C2 :
    Relation.TransGen (Edge cycSpecs) "A" "A" ∧
    topoSort cycSpecs = ["B", "A"] ∧
    ¬ GoodOrder cycSpecs (topoSort cycSpecs) := by
  refine ⟨?_, by decide, ?_⟩
  · have h1 : Edge cycSpecs "A" "B" := by unfold Edge; decide
    have h2 : Edge cycSpecs "B" "A" := by unfold Edge; decide
    exact Relation.TransGen.head h1 (Relation.TransGen.single h2)
  · intro h
    have hB : "A" ∈ reqs cycSpecs "B" := by decide
    have hmem : "B" ∈ topoSort cycSpecs := by decide
    rcases h "B" hmem "A" hB with ⟨_, hidx⟩
    revert hidx
    decide

/-- Claim C3 (confirmed): on every acyclic registry closed under
requires, every name in a listed package's `Requires` appears in the
`topoSort` output strictly before the package itself. -/
theorem claim_C3 (m : List (String × Spec)) (hclosed : ClosedMap m)
    (hacyc : Acyclic m) :
    ∀ p ∈ topoSort m, ∀ r ∈ reqs m p,
      r ∈ topoSort m ∧ (topoSort m).indexOf r < (topoSort m).indexOf p := by
  have _ := hclosed
  exact topoSort_good m hacyc

/-- The spec's worked example: `A` has no requires, `B` requires `A`,
and `C` requires both. -/
def abcSpecs : List (String × Spec) :=
  [("A", { Package := "A" }),
   ("B", { Package := "B", Requires := ["A"] }),
   ("C", { Package := "C", Requires := ["A", "B"] })]

theorem abcSpecs_acyclic : Acyclic abcSpecs := by
  apply acyclic_of_rank abcSpecs
    (fun s => if s = "A" then 0 else if s = "B" then 1 else 2)
  intro a b h
  rcases edge_cases h with ⟨s, hmem, hb⟩
  fin_cases hmem
  · simp at hb
  · simp at hb
    subst hb
    decide
  · simp at hb
    rcases hb with rfl | rfl <;> decide

/-- Witness for claim C3 at the spec's example registry: the hypotheses
hold and the returned order `["A", "B", "C"]` is dependency-first. -/
theorem claim_C3_witness :
    ClosedMap abcSpecs ∧ Acyclic abcSpecs ∧
    (∀ p ∈ topoSort abcSpecs, ∀ r ∈ reqs abcSpecs p,
      r ∈ topoSort abcSpecs ∧
        (topoSort abcSpecs).indexOf r < (topoSort abcSpecs).indexOf p) :=
  ⟨by unfold ClosedMap; decide, abcSpecs_acyclic,
    claim_C3 abcSpecs (by unfold ClosedMap; decide) abcSpecs_acyclic⟩

/-! ## The older `toposort` (main.go lines 449-506)

This snapshot iterates `for _, spec := range specs` over the Go map, so
its work list `L` is seeded in map iteration order; the association-list
order models that iteration order.  The edge-pruning loop ranges over
the just-emptied new `edges` slice instead of `oldEdges`, so `edges`
becomes empty after the first pop; `hasPred` is computed from that empty
slice, hence `withPred` is all of `next` (deduplicated in insertion
order, which stands in for the arbitrary iteration order of the
`withPred` set).  A missing key in `specs[m]` yields the zero `Spec`
value (the map holds values, not pointers). -/

def toposortGoLoop (specs : List (String × Spec)) :
    Nat → List Spec → List (String × String) → List Spec → List Spec
  | 0, _, _, s => s
  | _ + 1, [], _, s => s
  | fuel + 1, spec :: l, edges, s =>
    let next := (edges.filter (fun e => e.2 = spec.Package)).map Prod.fst
    -- oldEdges := edges; edges = []; the pruning loop ranges over the new
    -- (empty) edges, so the edge list is now empty
    let edges' : List (String × String) := []
    -- hasPred is built from the (empty) edge list, so it is empty and
    -- withPred is all of next, as a set; its arbitrary Go iteration order
    -- is modelled by the dedup order
    let withPred := next.dedup
    let l' := l ++ withPred.map (fun m =>
      match specs.lookup m with
      | some sp => sp
      | none => {})
    toposortGoLoop specs fuel l' edges' (s ++ [spec])

def toposortGo (specs : List (String × Spec)) : List String :=
  let edges := (specs.map (fun kv =>
    kv.2.Requires.map (fun d => (kv.2.Package, d)))).flatten
  let L := (specs.filter (fun kv => kv.2.Requires.isEmpty)).map Prod.snd
  let S := toposortGoLoop specs (specs.length + edges.length + 1) L edges []
  S.map Spec.Package

/-! ## Determinism of the current sorter

Go map iteration order is arbitrary; two runs correspond to two
permutations of the association list with the same (duplicate-free)
keys.  `topoSort` sorts the keys first, so its output is invariant. -/

theorem lookup_perm {m₁ m₂ : List (String × Spec)} (h : m₁.Perm m₂)
    (hnd : (m₁.map Prod.fst).Nodup) : ∀ k, m₁.lookup k = m₂.lookup k := by
  induction h with
  | nil => intro k; rfl
  | cons x hp ih =>
      intro k
      rw [List.lookup, List.lookup]
      rcases hbeq : k == x.1 with _ | _
      · exact ih (by simpa using (List.nodup_cons.mp (by simpa using hnd)).2) k
      · rfl
  | swap x y l =>
      intro k
      have hxy : y.1 ≠ x.1 := by
        have h0 := hnd
        simp only [List.map_cons, List.nodup_cons, List.mem_cons] at h0
        exact fun hc => h0.1 (Or.inl hc)
      rw [List.lookup, List.lookup, List.lookup, List.lookup]
      rcases hky : k == y.1 with _ | _
      · rcases hkx : k == x.1 with _ | _
        · rfl
        · rfl
      · rcases hkx : k == x.1 with _ | _
        · rfl
        · exact absurd (by
            have h1 : k = y.1 := by simpa using hky
            have h2 : k = x.1 := by simpa using hkx
            rw [← h1, ← h2]) hxy
  | trans h₁ h₂ ih₁ ih₂ =>
      intro k
      rw [ih₁ hnd k]
      exact ih₂ ((h₁.map Prod.fst).nodup_iff.mp hnd) k

theorem visitAll_congr {m₁ m₂ : List (String × Spec)}
    (h : ∀ k, reqs m₁ k = reqs m₂ k) :
    ∀ fuel items st, visitAll m₁ fuel items st = visitAll m₂ fuel items st := by
  intro fuel
  induction fuel with
  | zero => intro items st; rfl
  | succ fuel ihf =>
      intro items
      induction items with
      | nil => intro st; rfl
      | cons item items ihi =>
          intro st
          rw [visitAll_cons, visitAll_cons]
          by_cases hs : item ∈ st.seen
          · rw [if_pos hs, if_pos hs, ihi st]
          · rw [if_neg hs, if_neg hs]
            simp only []
            rw [h item, ihf (reqs m₂ item) ⟨item :: st.seen, st.order⟩, ihi]

theorem reqs_perm {m₁ m₂ : List (String × Spec)} (h : m₁.Perm m₂)
    (hnd : (m₁.map Prod.fst).Nodup) : ∀ k, reqs m₁ k = reqs m₂ k := by
  intro k
  unfold reqs
  rw [lookup_perm h hnd k]

/-- Determinism of the current snapshot's sorter: the output does not
depend on the map iteration order. -/
theorem topoSort_perm_invariant {m₁ m₂ : List (String × Spec)}
    (h : m₁.Perm m₂) (hnd : (m₁.map Prod.fst).Nodup) :
    topoSort m₁ = topoSort m₂ := by
  unfold topoSort
  have hnames : (names m₁).Perm (names m₂) := by
    unfold names
    exact (h.map Prod.fst).append ((h.map (fun kv => kv.2.Requires)).flatten)
  have hfuel : (names m₁).dedup.length + 1 = (names m₂).dedup.length + 1 := by
    rw [hnames.dedup.length_eq]
  have hkeys : sortStrings (m₁.map Prod.fst) = sortStrings (m₂.map Prod.fst) :=
    sortStrings_eq_of_perm (h.map Prod.fst)
  rw [hfuel, hkeys, visitAll_congr (reqs_perm h hnd)]

/-! ## Commit resolution, fingerprints, store paths (part_000 lines 285-379) -/

/-- Point update of one registry entry (`spec := b.specs[p]` mutates the
shared `*Spec`; a missing key would be a nil dereference in Go and is a
no-op here, unreachable in the pipeline). -/
def updateSpec (m : List (String × Spec)) (k : String) (f : Spec → Spec) :
    List (String × Spec) :=
  m.map (fun kv => if kv.1 = k then (kv.1, f kv.2) else kv)

/-- One step of the commit-resolution pass (lines 285-294):
`CommitHash` is `"0"`, or the tag when a source is declared (the actual
resolver is unimplemented). -/
def commitOne (s : Spec) : Spec :=
  { s with CommitHash := if s.Source ≠ "" then s.Tag else "0" }

def resolveCommits (m : List (String × Spec)) (order : List String) :
    List (String × Spec) :=
  order.foldl (fun acc p => updateSpec acc p commitOne) m

/-- Absent fields hash as the sentinel `"none"` (the `fct` closure). -/
def hashSentinel (s : String) : String := if s = "" then "none" else s

/-- The per-package fingerprint (lines 345-366): SHA-1 over the recipe
body, version, name and commit hash — and nothing else; in particular no
dependency fingerprint is written into the stream. -/
def specHash (s : Spec) : String :=
  sha1hex (hashSentinel s.Recipe ++ hashSentinel s.Version ++
    hashSentinel s.Package ++ hashSentinel s.CommitHash)

def hashOne (s : Spec) : Spec := { s with Hash := specHash s }

/-- The hash-calculation loop, run in build order. -/
def computeHashes (m : List (String × Spec)) (order : List String) :
    List (String × Spec) :=
  order.foldl (fun acc p => updateSpec acc p hashOne) m

/-- Go `filepath.Join`: empty components are skipped and the rest joined
with `/` (the additional `Clean` is the identity on the already clean
components the store-path loop passes). -/
def joinParts : List String → String
  | [] => ""
  | [x] => x
  | x :: xs => x ++ "/" ++ joinParts xs

def pathJoin (l : List String) : String :=
  joinParts (l.filter (fun s => s ≠ ""))

/-- Go `spec.Hash[:2]`: a byte slice of the (ASCII hex) fingerprint,
i.e. its first `n` characters. -/
def strTake (s : String) (n : Nat) : String := String.mk (s.data.take n)

/-- One step of the store-path assignment loop (lines 370-379).
`prefix` is `spec.Hash[:2]`; `linkDir` is assigned twice and the second
(work-dir rooted) assignment wins; `linksPath` is never assigned. -/
def storeOne (cfg : Config) (s : Spec) : Spec :=
  { s with tar :=
    { storePath := pathJoin ["TARS", cfg.arch, "store", strTake s.Hash 2, s.Hash]
      linksPath := s.tar.linksPath
      hashDir := pathJoin [cfg.wdir, "TARS", cfg.arch, "store", strTake s.Hash 2, cfg.arch]
      linkDir := pathJoin [cfg.wdir, "TARS", cfg.arch, s.Package] } }

def computeStorePaths (cfg : Config) (m : List (String × Spec))
    (order : List String) : List (String × Spec) :=
  order.foldl (fun acc p => updateSpec acc p (storeOne cfg)) m

theorem lookup_cons_ne {β : Type} {j a : String} {v : β} {rest : List (String × β)}
    (h : j ≠ a) : List.lookup j ((a, v) :: rest) = List.lookup j rest := by
  rw [List.lookup_cons]
  have hbeq : (j == a) = false := by simp [h]
  rw [hbeq]

theorem lookup_updateSpec (m : List (String × Spec)) (k j : String) (f : Spec → Spec) :
    (updateSpec m k f).lookup j = if j = k then (m.lookup j).map f else m.lookup j := by
  induction m with
  | nil =>
      by_cases h : j = k <;> simp [updateSpec, List.lookup, h]
  | cons kv rest ih =>
      rcases kv with ⟨a, v⟩
      have hmap : updateSpec ((a, v) :: rest) k f =
          (if a = k then (k, f v) else (a, v)) :: updateSpec rest k f := by
        simp only [updateSpec, List.map_cons]
        split <;> simp_all
      rw [hmap]
      by_cases hak : a = k
      · subst hak
        rw [if_pos rfl]
        by_cases hja : j = a
        · subst hja
          rw [if_pos rfl, List.lookup_cons_self, List.lookup_cons_self]
          rfl
        · rw [if_neg hja, lookup_cons_ne hja, lookup_cons_ne hja, ih, if_neg hja]
      · rw [if_neg hak]
        by_cases hja : j = a
        · subst hja
          rw [if_neg hak, List.lookup_cons_self, List.lookup_cons_self]
        · rw [lookup_cons_ne hja, lookup_cons_ne hja, ih]

/-- A pass `order.foldl (updateSpec · · f)` leaves packages outside the
order untouched. -/
theorem foldl_update_lookup_of_not_mem (f : Spec → Spec) :
    ∀ (order : List String) (m : List (String × Spec)) (p : String), p ∉ order →
      ((order.foldl (fun acc q => updateSpec acc q f) m).lookup p = m.lookup p) := by
  intro order
  induction order with
  | nil => intro m p _; rfl
  | cons q rest ih =>
      intro m p hp
      rw [List.foldl_cons]
      rw [ih (updateSpec m q f) p (fun hc => hp (List.mem_cons_of_mem _ hc))]
      rw [lookup_updateSpec, if_neg (fun hc => hp (by rw [hc]; exact List.mem_cons_self _ _))]

/-- A pass `order.foldl (updateSpec · · f)` with an idempotent `f`
applies `f` exactly once, as seen through `lookup`, to every package in
the order. -/
theorem foldl_update_lookup_of_mem (f : Spec → Spec) (hf : ∀ s, f (f s) = f s) :
    ∀ (order : List String) (m : List (String × Spec)) (p : String), p ∈ order →
      ((order.foldl (fun acc q => updateSpec acc q f) m).lookup p =
        (m.lookup p).map f) := by
  intro order
  induction order with
  | nil => intro m p hp; exact absurd hp (List.not_mem_nil p)
  | cons q rest ih =>
      intro m p hp
      rw [List.foldl_cons]
      by_cases hpq : p = q
      · subst hpq
        by_cases hpr : p ∈ rest
        · rw [ih (updateSpec m p f) p hpr, lookup_updateSpec, if_pos rfl]
          cases m.lookup p with
          | none => rfl
          | some s => simp [hf s]
        · rw [foldl_update_lookup_of_not_mem f rest (updateSpec m p f) p hpr,
            lookup_updateSpec, if_pos rfl]
      · have hpr : p ∈ rest := by
          rcases List.mem_cons.mp hp with hc | hc
          · exact absurd hc hpq
          · exact hc
        rw [ih (updateSpec m q f) p hpr, lookup_updateSpec, if_neg hpq]

/-- Two registries that agree on every lookup keep agreeing after any
update pass, in particular after the hash pass: fingerprints are a
function of the registry contents alone. -/
theorem foldl_update_congr (f : Spec → Spec) :
    ∀ (order : List String) (m₁ m₂ : List (String × Spec)),
      (∀ k, m₁.lookup k = m₂.lookup k) →
      ∀ k, (order.foldl (fun acc q => updateSpec acc q f) m₁).lookup k =
        (order.foldl (fun acc q => updateSpec acc q f) m₂).lookup k := by
  intro order
  induction order with
  | nil => intro m₁ m₂ h k; exact h k
  | cons q rest ih =>
      intro m₁ m₂ h k
      rw [List.foldl_cons, List.foldl_cons]
      refine ih _ _ ?_ k
      intro j
      rw [lookup_updateSpec, lookup_updateSpec, h j]

/-! ## Claim C4: determinism

`topoSort` (part_000) is iteration-order invariant
(`topoSort_perm_invariant`), and the hash pass is a pure function of the
registry (`foldl_update_congr`); but the older `toposort` in main.go
seeds its work list from a raw map range, so two enumerations of the
same two-package map return differently ordered results. -/

def permSpecsA : List (String × Spec) :=
  [("X", { Package := "X" }), ("Y", { Package := "Y" })]

def permSpecsB : List (String × Spec) :=
  [("Y", { Package := "Y" }), ("X", { Package := "X" })]

/-- Claim C4 (refuted for the older snapshot, code bug): the two
enumerations of the same registry — same key set, no duplicates, merely
a different map iteration order — make main.go's `toposort` return
`["X", "Y"]` in one run and `["Y", "X"]` in the other, so the order is
not byte-identical across runs. -/
theorem claim_C4 :
    permSpecsA.Perm permSpecsB ∧
    (permSpecsA.map Prod.fst).Nodup ∧
    toposortGo permSpecsA = ["X", "Y"] ∧
    toposortGo permSpecsB = ["Y", "X"] ∧
    toposortGo permSpecsA ≠ toposortGo permSpecsB := by
  refine ⟨?_, by decide, by decide, by decide, by decide⟩
  exact List.Perm.swap ("Y", ({ Package := "Y" } : Spec))
    ("X", ({ Package := "X" } : Spec)) []

/-! ## Claim C7: the architecture filter -/

/-- Plain tokens (no colon) are all returned, names unchanged, whatever
the architecture: the compiled matcher is `".*"`. -/
theorem filterByArch_plain :
    ∀ (arch : String) (reqs : List String),
      (∀ v ∈ reqs, v.data.contains ':' = false) →
      filterByArch arch reqs = some reqs := by
  intro arch reqs
  induction reqs with
  | nil => intro _; rfl
  | cons v rest ih =>
      intro h
      unfold filterByArch
      rw [if_neg (by rw [h v (List.mem_cons_self _ _)]; exact Bool.false_ne_true),
        ih (fun x hx => h x (List.mem_cons_of_mem _ hx))]

/-- Claim C7 (refuted, code bug): `strings.SplitN(v, ":", 1)` returns
the whole token as its single element, so `s[1]` is out of range and the
program panics on every `name:pattern` token — even one whose pattern
matches the architecture, for which the claim promises the name back.
Plain tokens are returned unconditionally, as claimed. -/
theorem claim_C7 :
    filterByArch "x86_64" ["foo:x86.*"] = none ∧
    filterByArch "x86_64" ["make", "foo:x86.*", "cmake"] = none ∧
    filterByArch "x86_64" ["make", "cmake"] = some ["make", "cmake"] :=
  ⟨by decide, by decide, by decide⟩

/-! ## Claim C9: version/tag normalization -/

/-- Claim C9 (confirmed): the resolution step defaults an absent tag to
the (raw) version and replaces every `/` in the version with `_`; hence
no spec in a successfully resolved registry — the registry every later
path/fingerprint pass reads — carries a `/` in its version. -/
theorem claim_C9 :
    (∀ (cfg : Config) (raw : Spec) (recipe : String) (s' : Spec),
      processSpec cfg raw recipe = some s' →
      (s'.Tag = (if raw.Tag = "" then raw.Version else raw.Tag) ∧
       s'.Version = goReplaceSlash raw.Version ∧
       ∀ c ∈ s'.Version.data, c ≠ '/')) ∧
    (∀ (cfg : Config) (src : List (String × (Spec × String))) (fuel : Nat)
       (pending : List String) (reg : List (String × Spec)),
      resolveLoop cfg src fuel pending [] = .ok reg →
      ∀ kv ∈ reg, ∀ c ∈ kv.2.Version.data, c ≠ '/') := by
  have hmain : ∀ (cfg : Config) (raw : Spec) (recipe : String) (s' : Spec),
      processSpec cfg raw recipe = some s' →
      (s'.Tag = (if raw.Tag = "" then raw.Version else raw.Tag) ∧
       s'.Version = goReplaceSlash raw.Version ∧
       ∀ c ∈ s'.Version.data, c ≠ '/') := by
    intro cfg raw recipe s' hps
    unfold processSpec at hps
    split at hps
    · cases hps
    · split at hps
      · cases hps
      · simp only [] at hps
        cases hps
        refine ⟨rfl, rfl, ?_⟩
        intro c hc
        have hc' : c ∈ raw.Version.data.map (fun c => if c = '/' then '_' else c) := hc
        rcases List.mem_map.mp hc' with ⟨x, _, rfl⟩
        by_cases hx : x = '/' <;> simp [hx]
  refine ⟨hmain, ?_⟩
  intro cfg src fuel pending reg hok
  exact resolveLoop_preserves cfg src
    (fun kv => ∀ c ∈ kv.2.Version.data, c ≠ '/')
    (fun raw recipe s' _ hps => (hmain cfg raw recipe s' hps).2.2)
    fuel pending [] (fun kv h => absurd h (List.not_mem_nil kv)) reg hok

def cfg9 : Config := { arch := "x86_64", defaults := "release" }

def raw9 : Spec := { Package := "A", Version := "1.0/beta" }

def spec9out : Spec :=
  { Package := "A", Version := "1.0_beta", Requires := ["defaults-release"],
    BuildRequires := ["defaults-release"], RuntimeRequires := [],
    Tag := "1.0/beta", Recipe := "recipe-body" }

/-- Witness for claim C9: a version containing `/` and an absent tag;
after resolution the tag is the raw version and the stored version is
slash-free. -/
theorem claim_C9_witness :
    processSpec cfg9 raw9 "recipe-body" = some spec9out ∧
    (spec9out.Tag = (if raw9.Tag = "" then raw9.Version else raw9.Tag) ∧
     spec9out.Version = goReplaceSlash raw9.Version ∧
     ∀ c ∈ spec9out.Version.data, c ≠ '/') := by
  have h : processSpec cfg9 raw9 "recipe-body" = some spec9out := by decide
  exact ⟨h, claim_C9.1 cfg9 raw9 "recipe-body" spec9out h⟩

/-! ## Claim C5: disable propagation -/

theorem filterReqs_not_disabled {cfg : Config} {args l : List String}
    (h : filterReqs cfg args = some l) {D : String} (hD : D ∈ cfg.disable) :
    D ∉ l := by
  unfold filterReqs at h
  split at h
  · cases h
  · cases h
    intro hmem
    have hpred := List.of_mem_filter hmem
    simp only [decide_eq_true_eq] at hpred
    exact hpred (List.elem_eq_true_of_mem hD)

/-- Claim C5 as amended (true for every disabled name except the
implicit defaults package): when resolution succeeds, a disabled `D`
other than `defaults-<cfg.defaults>` appears in no resolved package's
`Requires` or `BuildRequires`, is no registry key, and never appears in
the topological build order. -/
theorem claim_C5 (cfg : Config) (src : List (String × (Spec × String)))
    (fuel : Nat) (pending : List String) (reg : List (String × Spec))
    (D : String) (hD : D ∈ cfg.disable) (hDdef : D ≠ "defaults-" ++ cfg.defaults)
    (hok : resolveLoop cfg src fuel pending [] = .ok reg) :
    (∀ kv ∈ reg, D ∉ kv.2.Requires ∧ D ∉ kv.2.BuildRequires ∧ kv.1 ≠ D) ∧
    D ∉ topoSort reg := by
  have hP : ∀ kv ∈ reg, D ∉ kv.2.Requires ∧ D ∉ kv.2.BuildRequires ∧ kv.1 ≠ D := by
    refine resolveLoop_preserves cfg src
      (fun kv => D ∉ kv.2.Requires ∧ D ∉ kv.2.BuildRequires ∧ kv.1 ≠ D)
      ?_ fuel pending [] (fun kv h => absurd h (List.not_mem_nil kv)) reg hok
    intro raw recipe s' hdis hps
    unfold processSpec at hps
    split at hps
    · cases hps
    · rename_i reqs0 hfr
      split at hps
      · cases hps
      · rename_i breqs0 hfb
        simp only [] at hps
        cases hps
        have hreqs0 : D ∉ reqs0 := filterReqs_not_disabled hfr hD
        have hbreqs0 : D ∉ breqs0 := filterReqs_not_disabled hfb hD
        have hbreqs : D ∉ (if raw.Package ≠ "defaults-" ++ cfg.defaults
            then breqs0 ++ ["defaults-" ++ cfg.defaults] else breqs0) := by
          split
          · intro hc
            rcases List.mem_append.mp hc with h1 | h2
            · exact hbreqs0 h1
            · exact hDdef (by simpa using h2)
          · exact hbreqs0
        refine ⟨?_, hbreqs, ?_⟩
        · intro hc
          rcases List.mem_append.mp hc with h1 | h2
          · exact hreqs0 h1
          · exact hbreqs h2
        · show raw.Package ≠ D
          intro hc
          rw [hc] at hdis
          have h2 : cfg.disable.contains D = true := List.elem_eq_true_of_mem hD
          rw [h2] at hdis
          cases hdis
  refine ⟨hP, ?_⟩
  intro hmem
  rcases topoSort_mem_sub reg D hmem with hkey | ⟨kv, hkv, hreq⟩
  · rcases List.mem_map.mp hkey with ⟨kv, hkv, hfst⟩
    exact (hP kv hkv).2.2 hfst
  · exact (hP kv hkv).1 hreq

def cfgC5 : Config := { disable := ["defaults-release"], defaults := "release" }

def srcC5 : List (String × (Spec × String)) :=
  [("a", ({ Package := "A" }, "body-a")),
   ("defaults-release", ({ Package := "defaults-release" }, "body-d"))]

def specC5out : Spec :=
  { Package := "A", Requires := ["defaults-release"],
    BuildRequires := ["defaults-release"], RuntimeRequires := [],
    Recipe := "body-a" }

/-- Counterexample to claim C5 as frozen: disable the implicit defaults
package itself; resolution still appends `defaults-release` to `A`'s
`BuildRequires` (and therefore `Requires`) after the disable filter ran,
so the disabled name is not removed from the requirement lists that end
up mentioning it. -/
theorem claim_C5_counterexample :
    "defaults-release" ∈ cfgC5.disable ∧
    resolveLoop cfgC5 srcC5 10 ["A"] [] = .ok [("A", specC5out)] ∧
    "defaults-release" ∈ specC5out.Requires ∧
    "defaults-release" ∈ specC5out.BuildRequires :=
  ⟨by decide, rfl, by decide, by decide⟩

def cfgC5w : Config := { disable := ["X"], defaults := "release" }

def srcC5w : List (String × (Spec × String)) :=
  [("a", ({ Package := "A", Requires := ["X"] }, "ra")),
   ("x", ({ Package := "X" }, "rx")),
   ("defaults-release", ({ Package := "defaults-release" }, "rd"))]

def regC5w : List (String × Spec) :=
  [("A", { Package := "A", Requires := ["defaults-release"],
           BuildRequires := ["defaults-release"], RuntimeRequires := [],
           Recipe := "ra" }),
   ("defaults-release", { Package := "defaults-release", Recipe := "rd" })]

/-- Witness for the amended claim C5: disabling `X`, which `A` lists as
a requirement, strips `X` from every requirement list, from the
registry, and from the build order. -/
theorem claim_C5_witness :
    "X" ∈ cfgC5w.disable ∧ "X" ≠ "defaults-" ++ cfgC5w.defaults ∧
    resolveLoop cfgC5w srcC5w 10 ["A"] [] = .ok regC5w ∧
    (∀ kv ∈ regC5w, "X" ∉ kv.2.Requires ∧ "X" ∉ kv.2.BuildRequires ∧ kv.1 ≠ "X") ∧
    "X" ∉ topoSort regC5w := by
  have hok : resolveLoop cfgC5w srcC5w 10 ["A"] [] = .ok regC5w := rfl
  have h := claim_C5 cfgC5w srcC5w 10 ["A"] regC5w "X" (by decide) (by decide) hok
  exact ⟨by decide, by decide, hok, h.1, h.2⟩

/-! ## Claim C1: fingerprint sensitivity

The hash loop writes only the package's own recipe, version, name and
commit hash into the digest; no dependency fingerprint enters the
stream.  Hence a package's fingerprint is a function of its own spec
entry alone (`computeHashes_local`), and changing a dependency's recipe
cannot change its dependents' fingerprints. -/

theorem hashPass_idem (s : Spec) : hashOne (hashOne s) = hashOne s := rfl

/-- The fingerprint assigned to `p` depends only on `p`'s own registry
entry: two registries agreeing at `p` assign `p` identical fingerprints,
whatever the other packages (and in particular `p`'s dependencies)
contain. -/
theorem computeHashes_local {m₁ m₂ : List (String × Spec)}
    {order₁ order₂ : List String} {p : String}
    (h : m₁.lookup p = m₂.lookup p) (hp₁ : p ∈ order₁) (hp₂ : p ∈ order₂) :
    (computeHashes m₁ order₁).lookup p = (computeHashes m₂ order₂).lookup p := by
  unfold computeHashes
  rw [foldl_update_lookup_of_mem _ hashPass_idem order₁ m₁ p hp₁,
    foldl_update_lookup_of_mem _ hashPass_idem order₂ m₂ p hp₂, h]

/-- A two-package registry: `B` requires `A`; and the same registry with
only `A`'s recipe body changed. -/
def fpReg : List (String × Spec) :=
  [("A", { Package := "A", Version := "v1", Recipe := "r1" }),
   ("B", { Package := "B", Version := "v1", Requires := ["A"], Recipe := "rb" })]

def fpRegChanged : List (String × Spec) :=
  [("A", { Package := "A", Version := "v1", Recipe := "r2" }),
   ("B", { Package := "B", Version := "v1", Requires := ["A"], Recipe := "rb" })]

/-- Claim C1 (refuted, code bug): `B` transitively (here: directly)
requires `A`, and the two registries differ exactly in `A`'s recipe
body; running the pipeline's hash pass over the topological order
changes `A`'s fingerprint but leaves dependent `B`'s fingerprint
byte-identical, because the hash loop never folds dependency
fingerprints into the digest. -/
theorem claim_C1 :
    "A" ∈ reqs fpReg "B" ∧
    ((fpReg.lookup "A").map Spec.Recipe = some "r1" ∧
     (fpRegChanged.lookup "A").map Spec.Recipe = some "r2" ∧
     fpReg.lookup "B" = fpRegChanged.lookup "B") ∧
    ((computeHashes (resolveCommits fpReg (topoSort fpReg)) (topoSort fpReg)).lookup "A").map
        Spec.Hash ≠
      ((computeHashes (resolveCommits fpRegChanged (topoSort fpRegChanged))
        (topoSort fpRegChanged)).lookup "A").map Spec.Hash ∧
    ((computeHashes (resolveCommits fpReg (topoSort fpReg)) (topoSort fpReg)).lookup "B").map
        Spec.Hash =
      ((computeHashes (resolveCommits fpRegChanged (topoSort fpRegChanged))
        (topoSort fpRegChanged)).lookup "B").map Spec.Hash := by
  refine ⟨by decide, ⟨by decide, by decide, by decide⟩, ?_, ?_⟩
  · set_option maxRecDepth 100000 in decide
  · set_option maxRecDepth 100000 in decide

/-! ## Claim C8: store addressing -/

theorem hexEncode_length (l : List Nat) : (hexEncode l).length = 2 * l.length := by
  induction l with
  | nil => rfl
  | cons b rest ih =>
      show (hexDigit (b / 16) :: hexDigit (b % 16) :: hexEncode rest).length = _
      simp [List.length_cons, ih]
      omega

theorem sha1Bytes_length (msg : List Nat) : (sha1Bytes msg).length = 20 := by
  simp [sha1Bytes, wordBytes]

/-- Every fingerprint is a 40-character hex string. -/
theorem sha1hex_length (s : String) : (sha1hex s).length = 40 := by
  show (hexEncode (sha1Bytes (utf8Bytes s))).length = 40
  rw [hexEncode_length, sha1Bytes_length]

theorem strTake_length (s : String) (n : Nat) :
    (strTake s n).length = min n s.length := by
  show (s.data.take n).length = _
  rw [List.length_take]
  rfl

theorem filter_ne_all (l : List String) (h : ∀ x ∈ l, x ≠ "") :
    l.filter (fun s => s ≠ "") = l :=
  List.filter_eq_self.mpr (fun a ha => by simp [h a ha])

theorem pathJoin_five (a b c d e : String) (ha : a ≠ "") (hb : b ≠ "")
    (hc : c ≠ "") (hd : d ≠ "") (he : e ≠ "") :
    pathJoin [a, b, c, d, e] = a ++ "/" ++ b ++ "/" ++ c ++ "/" ++ d ++ "/" ++ e := by
  unfold pathJoin
  rw [filter_ne_all _ (by
    intro x hx
    fin_cases hx <;> assumption)]
  show a ++ "/" ++ (b ++ "/" ++ (c ++ "/" ++ (d ++ "/" ++ e))) = _
  simp [String.append_assoc]

theorem pathJoin_four (a b c d : String) (ha : a ≠ "") (hb : b ≠ "")
    (hc : c ≠ "") (hd : d ≠ "") :
    pathJoin [a, b, c, d] = a ++ "/" ++ b ++ "/" ++ c ++ "/" ++ d := by
  unfold pathJoin
  rw [filter_ne_all _ (by
    intro x hx
    fin_cases hx <;> assumption)]
  show a ++ "/" ++ (b ++ "/" ++ (c ++ "/" ++ d)) = _
  simp [String.append_assoc]

/-- Claim C8 as amended: after the hash and store-path passes, every
ordered package carries a 40-character hex fingerprint; its store path
is `TARS/<arch>/store/<shard>/<fingerprint>` — a path whose root is the
relative directory `TARS`, not the work dir — with the shard exactly the
first two characters of the fingerprint; and its link (alias) path is
`<wdir>/TARS/<arch>/<package>`, rooted at the work directory.  The two
roots differ, so no single `<root>` serves both as the frozen claim
has it. -/
theorem claim_C8 (cfg : Config) (m : List (String × Spec)) (order : List String)
    (p : String) (s' : Spec)
    (harch : cfg.arch ≠ "") (hwdir : cfg.wdir ≠ "") (hp : p ∈ order)
    (hlookup : (computeStorePaths cfg (computeHashes m order) order).lookup p = some s')
    (hpkg : s'.Package ≠ "") :
    s'.Hash.length = 40 ∧
    s'.tar.storePath =
      "TARS" ++ "/" ++ cfg.arch ++ "/" ++ "store" ++ "/" ++ strTake s'.Hash 2 ++ "/" ++ s'.Hash ∧
    s'.tar.linkDir = cfg.wdir ++ "/" ++ "TARS" ++ "/" ++ cfg.arch ++ "/" ++ s'.Package := by
  unfold computeStorePaths at hlookup
  rw [foldl_update_lookup_of_mem (storeOne cfg) (fun _ => rfl) order _ p hp] at hlookup
  unfold computeHashes at hlookup
  rw [foldl_update_lookup_of_mem hashOne hashPass_idem order m p hp] at hlookup
  rcases hm : m.lookup p with _ | s₀
  · rw [hm] at hlookup
    cases hlookup
  · rw [hm] at hlookup
    have hlookup' : some (storeOne cfg (hashOne s₀)) = some s' := hlookup
    cases hlookup'
    have hlen : (specHash s₀).length = 40 := sha1hex_length _
    have hHne : specHash s₀ ≠ "" := by
      intro hc
      rw [hc] at hlen
      cases hlen
    have hshard : (strTake (specHash s₀) 2).length = 2 := by
      rw [strTake_length, hlen]
      decide
    have hshardne : strTake (specHash s₀) 2 ≠ "" := by
      intro hc
      rw [hc] at hshard
      cases hshard
    have hpkg' : s₀.Package ≠ "" := hpkg
    refine ⟨hlen, ?_, ?_⟩
    · show pathJoin ["TARS", cfg.arch, "store", strTake (specHash s₀) 2, specHash s₀] = _
      rw [pathJoin_five _ _ _ _ _ (by decide) harch (by decide) hshardne hHne]
      rfl
    · show pathJoin [cfg.wdir, "TARS", cfg.arch, s₀.Package] = _
      rw [pathJoin_four _ _ _ _ hwdir (by decide) harch hpkg']
      rfl

def cfg8 : Config := { arch := "x86_64", wdir := "/sw" }

def c8reg : List (String × Spec) :=
  [("P", { Package := "P", Version := "1", Recipe := "r" })]

def s8spec : Spec :=
  { Package := "P", Version := "1", Recipe := "r", CommitHash := "0",
    Hash := "0cc87b2ae2c708fcea8b3c4f140b8aed90732006",
    tar := { storePath := "TARS/x86_64/store/0c/0cc87b2ae2c708fcea8b3c4f140b8aed90732006",
             linksPath := "",
             hashDir := "/sw/TARS/x86_64/store/0c/x86_64",
             linkDir := "/sw/TARS/x86_64/P" } }

/-- Counterexample to claim C8 as frozen: running the full pipeline on a
one-package registry, the assigned store path is rooted at the relative
`TARS` directory while the alias path is rooted at `<wdir>/TARS`, so (by
a length count on the two equations) there is no single root string for
which both paths have the claimed `<root>/...` forms. -/
theorem claim_C8_counterexample :
    (computeStorePaths cfg8
      (computeHashes (resolveCommits c8reg (topoSort c8reg)) (topoSort c8reg))
      (topoSort c8reg)).lookup "P" = some s8spec ∧
    ¬ ∃ root : String,
        s8spec.tar.storePath =
          root ++ "/" ++ cfg8.arch ++ "/" ++ "store" ++ "/" ++
            strTake s8spec.Hash 2 ++ "/" ++ s8spec.Hash ∧
        s8spec.tar.linkDir = root ++ "/" ++ cfg8.arch ++ "/" ++ s8spec.Package := by
  constructor
  · set_option maxRecDepth 100000 in decide
  · rintro ⟨root, h1, h2⟩
    have l1 := congrArg String.length h1
    have l2 := congrArg String.length h2
    simp only [String.length_append] at l1 l2
    have e1 : s8spec.tar.storePath.length = 61 := by decide
    have e2 : s8spec.tar.linkDir.length = 17 := by decide
    have e3 : cfg8.arch.length = 6 := by decide
    have e4 : ("/" : String).length = 1 := by decide
    have e5 : ("store" : String).length = 5 := by decide
    have e6 : (strTake s8spec.Hash 2).length = 2 := by decide
    have e7 : s8spec.Hash.length = 40 := by decide
    have e8 : s8spec.Package.length = 1 := by decide
    rw [e1, e3, e4, e5, e6, e7] at l1
    rw [e2, e3, e4, e8] at l2
    omega

/-- Witness for the amended claim C8 on the same one-package pipeline:
the hypotheses hold and the two path equations are as amended. -/
theorem claim_C8_witness :
    cfg8.arch ≠ "" ∧ cfg8.wdir ≠ "" ∧ "P" ∈ topoSort c8reg ∧
    (computeStorePaths cfg8
      (computeHashes (resolveCommits c8reg (topoSort c8reg)) (topoSort c8reg))
      (topoSort c8reg)).lookup "P" = some s8spec ∧
    s8spec.Package ≠ "" ∧
    (s8spec.Hash.length = 40 ∧
     s8spec.tar.storePath =
       "TARS" ++ "/" ++ cfg8.arch ++ "/" ++ "store" ++ "/" ++
         strTake s8spec.Hash 2 ++ "/" ++ s8spec.Hash ∧
     s8spec.tar.linkDir = cfg8.wdir ++ "/" ++ "TARS" ++ "/" ++ cfg8.arch ++ "/" ++ s8spec.Package) := by
  have hlookup : (computeStorePaths cfg8
      (computeHashes (resolveCommits c8reg (topoSort c8reg)) (topoSort c8reg))
      (topoSort c8reg)).lookup "P" = some s8spec := by
    set_option maxRecDepth 100000 in decide
  refine ⟨by decide, by decide, by decide, hlookup, by decide, ?_⟩
  exact claim_C8 cfg8 _ (topoSort c8reg) "P" s8spec (by decide) (by decide)
    (by decide) hlookup (by decide)

/-! ## Build-driver loop (part_000 lines 392-441)

The queue starts as the topological order and is only consumed.  Each
iteration bumps the package's `niter` counter and aborts fatally past 20
attempts; then the spec is looked up (`nil` dereference when absent),
its transient `Revision` is reset, and — when a remote store is
configured — the update-from-remote branch hits `panic("not
implemented")`. -/

structure BState where
  specs : List (String × Spec)
  niter : List (String × Nat)
  iters : Nat
deriving DecidableEq, Repr

inductive BuildResult where
  /-- The loop ran off the end of the queue. -/
  | done (st : BState)
  /-- `msg.Fatalf("too many attempts at building %s...")`. -/
  | fatal (p : String) (st : BState)
  /-- Nil-pointer dereference: `p` is not a registry key. -/
  | nilSpec (p : String) (st : BState)
  /-- `panic("not implemented")` in the remote-store branch. -/
  | panicked (p : String) (st : BState)
deriving DecidableEq, Repr

def BuildResult.state : BuildResult → BState
  | .done st => st | .fatal _ st => st | .nilSpec _ st => st | .panicked _ st => st

/-- `niter[p]++` on the association list. -/
def bumpNiter : List (String × Nat) → String → List (String × Nat)
  | [], p => [(p, 1)]
  | (k, n) :: rest, p =>
      if k = p then (k, n + 1) :: rest else (k, n) :: bumpNiter rest p

def lookupNiter (l : List (String × Nat)) (p : String) : Nat :=
  (l.lookup p).getD 0

def buildLoop (remoteStore : String) : List String → BState → BuildResult
  | [], st => .done st
  | p :: build, st =>
    let niter := bumpNiter st.niter p
    let st1 : BState := ⟨st.specs, niter, st.iters + 1⟩
    if lookupNiter niter p > 20 then
      .fatal p st1
    else
      match st1.specs.lookup p with
      | none => .nilSpec p st1
      | some _ =>
        let st2 : BState :=
          ⟨updateSpec st1.specs p (fun s => { s with Revision := "" }),
           st1.niter, st1.iters⟩
        if remoteStore ≠ "" then .panicked p st2
        else buildLoop remoteStore build st2

theorem buildLoop_cons (remote : String) (p : String) (build : List String)
    (st : BState) :
    buildLoop remote (p :: build) st =
      (let niter := bumpNiter st.niter p
       let st1 : BState := ⟨st.specs, niter, st.iters + 1⟩
       if lookupNiter niter p > 20 then
         .fatal p st1
       else
         match st1.specs.lookup p with
         | none => .nilSpec p st1
         | some _ =>
           let st2 : BState :=
             ⟨updateSpec st1.specs p (fun s => { s with Revision := "" }),
              st1.niter, st1.iters⟩
           if remote ≠ "" then .panicked p st2
           else buildLoop remote build st2) := rfl

theorem bumpNiter_nil (p : String) : bumpNiter [] p = [(p, 1)] := rfl

theorem bumpNiter_cons (k : String) (n : Nat) (rest : List (String × Nat))
    (p : String) :
    bumpNiter ((k, n) :: rest) p =
      if k = p then (k, n + 1) :: rest else (k, n) :: bumpNiter rest p := rfl

theorem lookupNiter_bump_self (l : List (String × Nat)) (p : String) :
    lookupNiter (bumpNiter l p) p = lookupNiter l p + 1 := by
  induction l with
  | nil =>
      unfold lookupNiter
      rw [bumpNiter_nil, List.lookup_cons_self, List.lookup_nil]
      rfl
  | cons kv rest ih =>
      rcases kv with ⟨k, n⟩
      rw [bumpNiter_cons]
      by_cases hk : k = p
      · subst hk
        rw [if_pos rfl]
        unfold lookupNiter
        rw [List.lookup_cons_self, List.lookup_cons_self]
        rfl
      · have hpk : p ≠ k := fun hc => hk hc.symm
        rw [if_neg hk]
        unfold lookupNiter
        rw [lookup_cons_ne hpk, lookup_cons_ne hpk]
        exact ih

theorem lookupNiter_bump_ne (l : List (String × Nat)) (p q : String)
    (h : q ≠ p) : lookupNiter (bumpNiter l p) q = lookupNiter l q := by
  induction l with
  | nil =>
      unfold lookupNiter
      rw [bumpNiter_nil, lookup_cons_ne h]
  | cons kv rest ih =>
      rcases kv with ⟨k, n⟩
      rw [bumpNiter_cons]
      by_cases hk : k = p
      · subst hk
        rw [if_pos rfl]
        have hqk : q ≠ k := h
        unfold lookupNiter
        rw [lookup_cons_ne hqk, lookup_cons_ne hqk]
      · rw [if_neg hk]
        by_cases hqk : q = k
        · subst hqk
          unfold lookupNiter
          rw [List.lookup_cons_self, List.lookup_cons_self]
        · unfold lookupNiter
          rw [lookup_cons_ne hqk, lookup_cons_ne hqk]
          exact ih

theorem mem_bump {l : List (String × Nat)} {p : String} {e : String × Nat}
    (h : e ∈ bumpNiter l p) :
    e ∈ l ∨ (e.1 = p ∧ e.2 = lookupNiter l p + 1) := by
  induction l with
  | nil =>
      rw [bumpNiter_nil] at h
      rcases List.mem_cons.mp h with rfl | hr
      · refine Or.inr ⟨rfl, ?_⟩
        unfold lookupNiter
        rw [List.lookup_nil]
        rfl
      · exact absurd hr (List.not_mem_nil e)
  | cons kv rest ih =>
      rcases kv with ⟨k, n⟩
      rw [bumpNiter_cons] at h
      by_cases hk : k = p
      · subst hk
        rw [if_pos rfl] at h
        rcases List.mem_cons.mp h with rfl | hr
        · refine Or.inr ⟨rfl, ?_⟩
          unfold lookupNiter
          rw [List.lookup_cons_self]
          rfl
        · exact Or.inl (List.mem_cons_of_mem _ hr)
      · rw [if_neg hk] at h
        rcases List.mem_cons.mp h with rfl | hr
        · exact Or.inl (List.mem_cons_self _ _)
        · rcases ih hr with hl | ⟨h1, h2⟩
          · exact Or.inl (List.mem_cons_of_mem _ hl)
          · refine Or.inr ⟨h1, ?_⟩
            rw [h2]
            unfold lookupNiter
            rw [lookup_cons_ne (show p ≠ k from fun hc => hk hc.symm)]

theorem lookupNiter_le_of_mem_le {l : List (String × Nat)} (p : String)
    (h : ∀ e ∈ l, e.2 ≤ 20) : lookupNiter l p ≤ 20 := by
  unfold lookupNiter
  rcases hl : l.lookup p with _ | n
  · simp
  · simpa using h (p, n) (lookup_mem hl)

/-- Safety of the attempt-counter guard: a normally completed run never
holds a counter above 20, and the fatal abort fires exactly when some
package's counter reaches 21.  The iteration count is bounded by the
queue length: the queue is only consumed, so the loop cannot run
forever. -/
theorem buildLoop_guard (remote : String) :
    ∀ (queue : List String) (st : BState),
      (∀ e ∈ st.niter, e.2 ≤ 20) →
      ((∀ st', buildLoop remote queue st = .done st' → ∀ e ∈ st'.niter, e.2 ≤ 20) ∧
       (∀ p st', buildLoop remote queue st = .fatal p st' →
          lookupNiter st'.niter p = 21) ∧
       (buildLoop remote queue st).state.iters ≤ st.iters + queue.length) := by
  intro queue
  induction queue with
  | nil =>
      intro st hst
      refine ⟨?_, ?_, by simp [buildLoop, BuildResult.state]⟩
      · intro st' h
        cases h
        exact hst
      · intro p st' h
        cases h
  | cons p build ih =>
      intro st hst
      rw [buildLoop_cons]
      simp only []
      have hbound : lookupNiter (bumpNiter st.niter p) p ≤ 21 := by
        rw [lookupNiter_bump_self]
        have := lookupNiter_le_of_mem_le p hst
        omega
      by_cases hg : lookupNiter (bumpNiter st.niter p) p > 20
      · rw [if_pos hg]
        refine ⟨?_, ?_, ?_⟩
        · intro st' h
          cases h
        · intro q st' h
          cases h
          show lookupNiter (bumpNiter st.niter p) p = 21
          omega
        · show st.iters + 1 ≤ st.iters + (p :: build).length
          simp only [List.length_cons]
          omega
      · rw [if_neg hg]
        have hentries : ∀ e ∈ bumpNiter st.niter p, e.2 ≤ 20 := by
          intro e he
          rcases mem_bump he with hl | ⟨h1, h2⟩
          · exact hst e hl
          · rw [h2]
            rw [← lookupNiter_bump_self st.niter p] at h2 ⊢
            omega
        rcases hsp : List.lookup p st.specs with _ | s
        · refine ⟨?_, ?_, ?_⟩
          · intro st' h
            cases h
          · intro q st' h
            cases h
          · show st.iters + 1 ≤ st.iters + (p :: build).length
            simp only [List.length_cons]
            omega
        · by_cases hr : remote ≠ ""
          · rw [if_pos hr]
            refine ⟨?_, ?_, ?_⟩
            · intro st' h
              cases h
            · intro q st' h
              cases h
            · show st.iters + 1 ≤ st.iters + (p :: build).length
              simp only [List.length_cons]
              omega
          · rw [if_neg hr]
            rcases ih ⟨updateSpec st.specs p (fun s => { s with Revision := "" }),
              bumpNiter st.niter p, st.iters + 1⟩ hentries with ⟨ihd, ihf, ihb⟩
            refine ⟨ihd, ihf, ?_⟩
            refine le_trans ihb ?_
            simp only [List.length_cons]
            omega

/-- When no remote store is configured, every queued name resolves in
the registry, and no counter can overflow, the loop consumes the whole
queue and visits each name exactly as often as it is queued. -/
theorem buildLoop_done :
    ∀ (queue : List String) (st : BState),
      (∀ p ∈ queue, (st.specs.lookup p).isSome) →
      (∀ p, lookupNiter st.niter p + queue.count p ≤ 20) →
      ∃ st', buildLoop "" queue st = .done st' ∧
        st'.iters = st.iters + queue.length ∧
        (∀ p, lookupNiter st'.niter p = lookupNiter st.niter p + queue.count p) := by
  intro queue
  induction queue with
  | nil =>
      intro st _ _
      exact ⟨st, rfl, by simp, by simp⟩
  | cons p build ih =>
      intro st hkeys hcount
      rw [buildLoop_cons]
      simp only []
      have hcp := hcount p
      rw [List.count_cons_self] at hcp
      have hg : ¬ lookupNiter (bumpNiter st.niter p) p > 20 := by
        rw [lookupNiter_bump_self]
        omega
      rw [if_neg hg]
      rcases hsp : List.lookup p st.specs with _ | s
      · have := hkeys p (List.mem_cons_self _ _)
        rw [hsp] at this
        simp at this
      · rw [if_neg (by simp)]
        set st2 : BState := ⟨updateSpec st.specs p (fun s => { s with Revision := "" }),
          bumpNiter st.niter p, st.iters + 1⟩ with hst2
        have hkeys2 : ∀ q ∈ build, (st2.specs.lookup q).isSome := by
          intro q hq
          show ((updateSpec st.specs p (fun s => { s with Revision := "" })).lookup q).isSome
          rw [lookup_updateSpec]
          by_cases hqp : q = p
          · rw [if_pos hqp, hqp, hsp]
            simp
          · rw [if_neg hqp]
            exact hkeys q (List.mem_cons_of_mem _ hq)
        have hcount2 : ∀ q, lookupNiter st2.niter q + build.count q ≤ 20 := by
          intro q
          by_cases hqp : q = p
          · subst hqp
            show lookupNiter (bumpNiter st.niter q) q + build.count q ≤ 20
            rw [lookupNiter_bump_self]
            omega
          · show lookupNiter (bumpNiter st.niter p) q + build.count q ≤ 20
            rw [lookupNiter_bump_ne _ _ _ hqp]
            have := hcount q
            rw [List.count_cons_of_ne hqp] at this
            exact this
        rcases ih st2 hkeys2 hcount2 with ⟨st', h1, h2, h3⟩
        refine ⟨st', h1, ?_, ?_⟩
        · rw [h2]
          simp [hst2, List.length_cons]
          omega
        · intro q
          rw [h3 q]
          by_cases hqp : q = p
          · subst hqp
            show lookupNiter (bumpNiter st.niter q) q + _ = _
            rw [lookupNiter_bump_self, List.count_cons_self]
            omega
          · show lookupNiter (bumpNiter st.niter p) q + _ = _
            rw [lookupNiter_bump_ne _ _ _ hqp, List.count_cons_of_ne hqp]

/-- Claim C6 (confirmed): the build loop keeps a per-package attempt
counter (`niter`); a run that completes normally never drove any counter
past 20, the fatal abort fires exactly when a package's counter reaches
21 (i.e. exceeds the ceiling of 20), and the number of iterations is
bounded by the queue length, so the loop can never run forever. -/
theorem claim_C6 (remote : String) (specs0 : List (String × Spec))
    (queue : List String) :
    (∀ st', buildLoop remote queue ⟨specs0, [], 0⟩ = .done st' →
      ∀ e ∈ st'.niter, e.2 ≤ 20) ∧
    (∀ p st', buildLoop remote queue ⟨specs0, [], 0⟩ = .fatal p st' →
      lookupNiter st'.niter p = 21) ∧
    (buildLoop remote queue ⟨specs0, [], 0⟩).state.iters ≤ queue.length := by
  have h := buildLoop_guard remote queue ⟨specs0, [], 0⟩
    (fun e he => absurd he (List.not_mem_nil e))
  refine ⟨h.1, h.2.1, ?_⟩
  have h3 := h.2.2
  simpa using h3

/-- Witness for claim C6: a queue with 21 copies of `A` (the situation
the guard protects against) makes the run abort fatally with `A`'s
counter at exactly 21. -/
theorem claim_C6_witness :
    buildLoop "" (List.replicate 21 "A") ⟨[("A", { Package := "A" })], [], 0⟩ =
      .fatal "A" ⟨[("A", { Package := "A" })], [("A", 21)], 21⟩ ∧
    lookupNiter (BState.niter ⟨[("A", { Package := "A" })], [("A", 21)], 21⟩) "A" = 21 := by
  constructor
  · decide
  · exact (claim_C6 "" [("A", { Package := "A" })] (List.replicate 21 "A")).2.1
      "A" ⟨[("A", { Package := "A" })], [("A", 21)], 21⟩ (by decide)

/-- Claim C10 as amended (the loop mechanics are as claimed only when no
remote store is configured and every ordered name is a registry key):
the queue is the topological order and is only consumed; the loop then
completes after exactly as many iterations as there are packages,
visiting each exactly once. -/
theorem claim_C10 (m : List (String × Spec))
    (hkeys : ∀ p ∈ topoSort m, (m.lookup p).isSome) :
    ∃ st', buildLoop "" (topoSort m) ⟨m, [], 0⟩ = .done st' ∧
      st'.iters = (topoSort m).length ∧
      (∀ p ∈ topoSort m, lookupNiter st'.niter p = 1) := by
  have hnodup := topoSort_nodup m
  have hcount : ∀ p, lookupNiter ([] : List (String × Nat)) p +
      (topoSort m).count p ≤ 20 := by
    intro p
    have h1 : (topoSort m).count p ≤ 1 := List.nodup_iff_count_le_one.mp hnodup p
    have h0 : lookupNiter ([] : List (String × Nat)) p = 0 := rfl
    omega
  rcases buildLoop_done (topoSort m) ⟨m, [], 0⟩ hkeys hcount with ⟨st', h1, h2, h3⟩
  refine ⟨st', h1, by simpa using h2, ?_⟩
  intro p hp
  have hval := h3 p
  have hcnt : (topoSort m).count p = 1 := by
    have hle := List.nodup_iff_count_le_one.mp hnodup p
    have hpos : 0 < (topoSort m).count p := List.count_pos_iff.mpr hp
    omega
  rw [hval, hcnt]
  rfl

/-- Witness for claim C10 at the spec's example registry: three
packages, three iterations, each visited once. -/
theorem claim_C10_witness :
    (∀ p ∈ topoSort abcSpecs, (abcSpecs.lookup p).isSome) ∧
    (∃ st', buildLoop "" (topoSort abcSpecs) ⟨abcSpecs, [], 0⟩ = .done st' ∧
      st'.iters = (topoSort abcSpecs).length ∧
      (∀ p ∈ topoSort abcSpecs, lookupNiter st'.niter p = 1)) :=
  ⟨by decide, claim_C10 abcSpecs (by decide)⟩

/-- Counterexample to claim C10 as frozen: with a remote store
configured, the Go loop hits `panic("not implemented")` on the very
first package, so on a two-package order it stops after one iteration,
not two — the loop does not visit each package exactly once. -/
theorem claim_C10_counterexample :
    (topoSort permSpecsA).length = 2 ∧
    buildLoop "ssh://remote" (topoSort permSpecsA) ⟨permSpecsA, [], 0⟩ =
      .panicked "X" ⟨permSpecsA, [("X", 1)], 1⟩ ∧
    (buildLoop "ssh://remote" (topoSort permSpecsA) ⟨permSpecsA, [], 0⟩).state.iters ≠
      (topoSort permSpecsA).length := by
  refine ⟨by decide, by decide, by decide⟩

end Aligot
